import Mathlib

/-!
Verification of the obsidian-image-autocrop pixel pipeline (src/main.ts, with the
earlier plugin variant in src/unnamed/part_000).  The pure pixel algorithms
(background detection, transparency masking, bounds finding, padding arithmetic)
are embedded directly from the TypeScript source; the external collaborators
(the sharp codec and the Obsidian vault) are modelled from the spec at their
interface boundary (spec §6).
-/

namespace Autocrop

/-! ## Raw pixel buffers (spec §3 data model)

A raw image is a row-major RGBA byte buffer: `pixels.length = width*height*4`,
pixel `(x, y)` occupying bytes `(y*width+x)*4 .. +3`.  Bytes are naturals; the
JavaScript reads that can yield `undefined` (out-of-range buffer indices) are
modelled with `Option Nat`, `none` playing the role of `undefined`/`NaN`. -/

abbrev Bytes := List Nat

structure Image where
  width : Nat
  height : Nat
  pixels : Bytes
deriving Repr, DecidableEq

/-- JS `Math.abs(a - b)` for byte values. -/
def absDiff (a b : Nat) : Nat := Int.natAbs ((a : Int) - (b : Int))

/-- A detector colour as JS computes it: each channel is a number or `NaN`
(`none`), the latter arising from sums poisoned by `undefined` buffer reads. -/
structure JsColor where
  r : Option Nat
  g : Option Nat
  b : Option Nat
deriving Repr, DecidableEq

/-- An ordinary RGB colour, injected into the JS value space. -/
def mkColor (r g b : Nat) : JsColor := ⟨some r, some g, some b⟩

/-- JS `+` on possibly-NaN numbers: any NaN operand poisons the sum. -/
def jsAdd : Option Nat → Option Nat → Option Nat
  | some a, some b => some (a + b)
  | _, _ => none

/-- JS buffer read `pixels[idx]`: `undefined` (`none`) outside the buffer. -/
def byteAt (px : Bytes) (idx : Int) : Option Nat :=
  if 0 ≤ idx ∧ idx.toNat < px.length then some (px.getD idx.toNat 0) else none

/-! ## Transparency Masker (`makeBackgroundTransparent`, src/main.ts:370-379;
`removeBackgroundColor` masking loop, src/unnamed/part_000:475-489) -/

/-- One channel of the background test `Math.abs(v - bg.c) <= tolerance`.
A `NaN` channel compares false, as in JS. -/
def chanClose (v : Nat) (c : Option Nat) (tol : Nat) : Bool :=
  match c with
  | some cv => decide (absDiff v cv ≤ tol)
  | none => false

/-- The full three-channel background test of the masking loop. -/
def pixelClose (r g b : Nat) (bg : JsColor) (tol : Nat) : Bool :=
  chanClose r bg.r tol && chanClose g bg.g tol && chanClose b bg.b tol

/-- `makeBackgroundTransparent` (src/main.ts:370-379): a single linear pass over
the RGBA buffer in steps of four bytes, zeroing the alpha byte of every pixel
whose three colour channels are within `tol` of the background. -/
def makeBackgroundTransparent (px : Bytes) (bg : JsColor) (tol : Nat) : Bytes :=
  match px with
  | r :: g :: b :: a :: rest =>
      if pixelClose r g b bg tol then
        r :: g :: b :: 0 :: makeBackgroundTransparent rest bg tol
      else
        r :: g :: b :: a :: makeBackgroundTransparent rest bg tol
  | other => other

theorem makeBackgroundTransparent_length :
    ∀ (px : Bytes) (bg : JsColor) (tol : Nat),
      (makeBackgroundTransparent px bg tol).length = px.length
  | r :: g :: b :: a :: rest, bg, tol => by
      by_cases h : pixelClose r g b bg tol <;>
        simp [makeBackgroundTransparent, h,
          makeBackgroundTransparent_length rest bg tol]
  | [], _, _ => rfl
  | [_], _, _ => rfl
  | [_, _], _, _ => rfl
  | [_, _, _], _, _ => rfl

/-- Chunkwise description of the masking pass: byte `4k+3` becomes `0` exactly
when the pixel's three colour bytes are within tolerance, every other byte is
returned unchanged. -/
theorem mbt_chunk :
    ∀ (px : Bytes) (bg : JsColor) (tol k : Nat), 4 * k + 3 < px.length →
      ((makeBackgroundTransparent px bg tol)[4 * k]? = px[4 * k]?) ∧
      ((makeBackgroundTransparent px bg tol)[4 * k + 1]? = px[4 * k + 1]?) ∧
      ((makeBackgroundTransparent px bg tol)[4 * k + 2]? = px[4 * k + 2]?) ∧
      ((makeBackgroundTransparent px bg tol)[4 * k + 3]? =
        some (if pixelClose (px.getD (4 * k) 0) (px.getD (4 * k + 1) 0)
                  (px.getD (4 * k + 2) 0) bg tol then 0 else px.getD (4 * k + 3) 0))
  | r :: g :: b :: a :: rest, bg, tol, 0, _ => by
      by_cases hc : pixelClose r g b bg tol <;>
        simp [makeBackgroundTransparent, hc]
  | r :: g :: b :: a :: rest, bg, tol, k + 1, h => by
      have hlen : 4 * k + 3 < rest.length := by
        simp only [List.length_cons] at h; omega
      have ih := mbt_chunk rest bg tol k hlen
      have e0 : 4 * (k + 1) = 4 * k + 1 + 1 + 1 + 1 := by omega
      have e1 : 4 * (k + 1) + 1 = 4 * k + 1 + 1 + 1 + 1 + 1 := by omega
      have e2 : 4 * (k + 1) + 2 = 4 * k + 2 + 1 + 1 + 1 + 1 := by omega
      have e3 : 4 * (k + 1) + 3 = 4 * k + 3 + 1 + 1 + 1 + 1 := by omega
      by_cases hc : pixelClose r g b bg tol
      · simp only [makeBackgroundTransparent, hc, if_true, e0, e1, e2, e3,
          List.getElem?_cons_succ, List.getD_cons_succ]
        exact ih
      · simp only [makeBackgroundTransparent, hc, if_false, Bool.false_eq_true, e0, e1, e2, e3,
          List.getElem?_cons_succ, List.getD_cons_succ]
        exact ih
  | [], _, _, k, h => by simp only [List.length_nil] at h; omega
  | [_], _, _, k, h => by simp only [List.length_cons, List.length_nil] at h; omega
  | [_, _], _, _, k, h => by simp only [List.length_cons, List.length_nil] at h; omega
  | [_, _, _], _, _, k, h => by simp only [List.length_cons, List.length_nil] at h; omega

/-- Idempotence of the masking pass, proved chunk by chunk: the first pass only
changes alpha bytes, the match re-reads the unchanged colour bytes, and a
matched pixel's alpha is set to the same `0` again. -/
theorem mbt_idem :
    ∀ (px : Bytes) (bg : JsColor) (tol : Nat),
      makeBackgroundTransparent (makeBackgroundTransparent px bg tol) bg tol =
        makeBackgroundTransparent px bg tol
  | r :: g :: b :: a :: rest, bg, tol => by
      by_cases hc : pixelClose r g b bg tol <;>
        simp [makeBackgroundTransparent, hc, mbt_idem rest bg tol]
  | [], _, _ => rfl
  | [_], _, _ => rfl
  | [_, _], _, _ => rfl
  | [_, _, _], _, _ => rfl

/-- C2: the Transparency Masker zeroes the alpha byte of pixel `k` exactly when
all three per-channel absolute differences from the background are `≤ tol`
(inclusive boundary), and returns every other byte — the three colour bytes of
every pixel, and the alpha byte of non-matching pixels — unchanged, preserving
the buffer length. -/
theorem C2_masker_pointwise (px : Bytes) (r0 g0 b0 tol k : Nat)
    (h : 4 * k + 3 < px.length) :
    ((makeBackgroundTransparent px (mkColor r0 g0 b0) tol).length = px.length) ∧
    ((makeBackgroundTransparent px (mkColor r0 g0 b0) tol)[4 * k]? = px[4 * k]?) ∧
    ((makeBackgroundTransparent px (mkColor r0 g0 b0) tol)[4 * k + 1]? = px[4 * k + 1]?) ∧
    ((makeBackgroundTransparent px (mkColor r0 g0 b0) tol)[4 * k + 2]? = px[4 * k + 2]?) ∧
    ((makeBackgroundTransparent px (mkColor r0 g0 b0) tol)[4 * k + 3]? =
      some (if absDiff (px.getD (4 * k) 0) r0 ≤ tol ∧
               absDiff (px.getD (4 * k + 1) 0) g0 ≤ tol ∧
               absDiff (px.getD (4 * k + 2) 0) b0 ≤ tol
            then 0 else px.getD (4 * k + 3) 0)) := by
  refine ⟨makeBackgroundTransparent_length px _ tol, ?_⟩
  have hch := mbt_chunk px (mkColor r0 g0 b0) tol k h
  have hcond : pixelClose (px.getD (4 * k) 0) (px.getD (4 * k + 1) 0)
      (px.getD (4 * k + 2) 0) (mkColor r0 g0 b0) tol = true ↔
      (absDiff (px.getD (4 * k) 0) r0 ≤ tol ∧
       absDiff (px.getD (4 * k + 1) 0) g0 ≤ tol ∧
       absDiff (px.getD (4 * k + 2) 0) b0 ≤ tol) := by
    simp [pixelClose, chanClose, mkColor, and_assoc]
  refine ⟨hch.1, hch.2.1, hch.2.2.1, hch.2.2.2.trans ?_⟩
  by_cases hp : absDiff (px.getD (4 * k) 0) r0 ≤ tol ∧
      absDiff (px.getD (4 * k + 1) 0) g0 ≤ tol ∧
      absDiff (px.getD (4 * k + 2) 0) b0 ≤ tol
  · rw [if_pos (hcond.mpr hp), if_pos hp]
  · rw [if_neg (fun hc => hp (hcond.mp hc)), if_neg hp]

/-- Witness for C2 at the documented tolerance boundary: with background
`(200,200,200)` and tolerance `30`, a pixel at per-channel distance exactly 30
is masked to alpha 0 and a pixel at distance 31 keeps its alpha byte. -/
theorem C2_masker_pointwise_witness :
    ((makeBackgroundTransparent
        [200, 200, 200, 77, 170, 170, 170, 88, 169, 170, 170, 99]
        (mkColor 200 200 200) 30)[4 * 1 + 3]? = some 0) ∧
    ((makeBackgroundTransparent
        [200, 200, 200, 77, 170, 170, 170, 88, 169, 170, 170, 99]
        (mkColor 200 200 200) 30)[4 * 2 + 3]? = some 99) :=
  ⟨((C2_masker_pointwise
      [200, 200, 200, 77, 170, 170, 170, 88, 169, 170, 170, 99]
      200 200 200 30 1 (by decide)).2.2.2.2).trans (by decide),
   ((C2_masker_pointwise
      [200, 200, 200, 77, 170, 170, 170, 88, 169, 170, 170, 99]
      200 200 200 30 2 (by decide)).2.2.2.2).trans (by decide)⟩

/-- C10: the Transparency Masker is idempotent — a second pass with the same
background colour and tolerance leaves the buffer produced by the first pass
unchanged. -/
theorem C10_masker_idempotent (px : Bytes) (bg : JsColor) (tol : Nat) :
    makeBackgroundTransparent (makeBackgroundTransparent px bg tol) bg tol =
      makeBackgroundTransparent px bg tol :=
  mbt_idem px bg tol

/-! ## Bounds Finder (`findContentBounds`, src/main.ts:381-430)

The four labelled scan loops are embedded as searches over index ranges:
`findBelow` is the ascending scan that stops at the first index satisfying the
predicate, `findLastBelow` the descending scan, `anyBelow` the inner
row/column loop that only needs existence. -/

/-- Inner loop: does some index `< n` satisfy `p`? -/
def anyBelow (p : Nat → Bool) : Nat → Bool
  | 0 => false
  | n + 1 => anyBelow p n || p n

/-- Ascending scan `for (i = 0; i < n; i++) if (p i) break`, returning the
first hit. -/
def findBelow (p : Nat → Bool) : Nat → Option Nat
  | 0 => none
  | n + 1 =>
      match findBelow p n with
      | some i => some i
      | none => if p n then some n else none

/-- Descending scan `for (i = n - 1; i >= 0; i--) if (p i) break`, returning
the first hit from above. -/
def findLastBelow (p : Nat → Bool) : Nat → Option Nat
  | 0 => none
  | n + 1 => if p n then some n else findLastBelow p n

theorem anyBelow_iff (p : Nat → Bool) :
    ∀ n : Nat, anyBelow p n = true ↔ ∃ i, i < n ∧ p i = true
  | 0 => by simp [anyBelow]
  | n + 1 => by
      simp only [anyBelow, Bool.or_eq_true, anyBelow_iff p n]
      constructor
      · rintro (⟨i, hi, hp⟩ | hp)
        · exact ⟨i, by omega, hp⟩
        · exact ⟨n, by omega, hp⟩
      · rintro ⟨i, hi, hp⟩
        rcases Nat.lt_or_ge i n with h | h
        · exact Or.inl ⟨i, h, hp⟩
        · refine Or.inr ?_
          have h2 : i = n := by omega
          rw [h2] at hp
          exact hp

theorem findBelow_none (p : Nat → Bool) :
    ∀ n : Nat, findBelow p n = none → ∀ i, i < n → p i = false
  | 0 => by intro _ i hi; omega
  | n + 1 => by
      intro h i hi
      simp only [findBelow] at h
      rcases hfb : findBelow p n with _ | j
      · rw [hfb] at h
        by_cases hp : p n
        · simp [hp] at h
        · rcases Nat.lt_or_ge i n with h' | h'
          · exact findBelow_none p n hfb i h'
          · have : i = n := by omega
            simpa [this] using hp
      · rw [hfb] at h; simp at h

theorem findBelow_some (p : Nat → Bool) :
    ∀ n y : Nat, findBelow p n = some y →
      y < n ∧ p y = true ∧ ∀ i, i < y → p i = false
  | 0, y => by intro h; simp [findBelow] at h
  | n + 1, y => by
      intro h
      simp only [findBelow] at h
      rcases hfb : findBelow p n with _ | j
      · rw [hfb] at h
        by_cases hp : p n
        · simp only [hp, if_true] at h
          cases h
          exact ⟨by omega, hp, findBelow_none p n hfb⟩
        · simp [hp] at h
      · rw [hfb] at h
        cases h
        have := findBelow_some p n y hfb
        exact ⟨by omega, this.2.1, this.2.2⟩

theorem findBelow_isSome (p : Nat → Bool) :
    ∀ n i : Nat, i < n → p i = true → findBelow p n ≠ none := by
  intro n i hi hp h
  have := findBelow_none p n h i hi
  rw [this] at hp
  cases hp

theorem findLastBelow_none (p : Nat → Bool) :
    ∀ n : Nat, findLastBelow p n = none → ∀ i, i < n → p i = false
  | 0 => by intro _ i hi; omega
  | n + 1 => by
      intro h i hi
      simp only [findLastBelow] at h
      by_cases hp : p n
      · simp [hp] at h
      · simp only [hp, if_false, Bool.false_eq_true] at h
        rcases Nat.lt_or_ge i n with h' | h'
        · exact findLastBelow_none p n h i h'
        · have : i = n := by omega
          simpa [this] using hp

theorem findLastBelow_some (p : Nat → Bool) :
    ∀ n y : Nat, findLastBelow p n = some y →
      y < n ∧ p y = true ∧ ∀ i, y < i → i < n → p i = false
  | 0, y => by intro h; simp [findLastBelow] at h
  | n + 1, y => by
      intro h
      simp only [findLastBelow] at h
      by_cases hp : p n
      · simp only [hp, if_true] at h
        cases h
        exact ⟨by omega, hp, fun i h1 h2 => by omega⟩
      · simp only [hp, if_false, Bool.false_eq_true] at h
        have := findLastBelow_some p n y h
        refine ⟨by omega, this.2.1, fun i h1 h2 => ?_⟩
        rcases Nat.lt_or_ge i n with h' | h'
        · exact this.2.2 i h1 h'
        · have : i = n := by omega
          simpa [this] using hp

theorem findLastBelow_isSome (p : Nat → Bool) :
    ∀ n i : Nat, i < n → p i = true → findLastBelow p n ≠ none := by
  intro n i hi hp h
  have := findLastBelow_none p n h i hi
  rw [this] at hp
  cases hp

/-- Alpha byte of pixel `(x, y)`: `pixels[(y*width + x)*4 + 3]` (reads inside a
well-formed buffer; the default is never hit for in-range coordinates). -/
def alphaAt (img : Image) (x y : Nat) : Nat :=
  img.pixels.getD ((y * img.width + x) * 4 + 3) 0

structure Bounds where
  top : Nat
  bottom : Nat
  left : Nat
  right : Nat
deriving Repr, DecidableEq

/-- Row `y` contains a pixel with alpha strictly above the threshold. -/
def rowHasContent (img : Image) (threshold y : Nat) : Bool :=
  anyBelow (fun x => decide (threshold < alphaAt img x y)) img.width

/-- Column `x` contains a pixel with alpha strictly above the threshold. -/
def colHasContent (img : Image) (threshold x : Nat) : Bool :=
  anyBelow (fun y => decide (threshold < alphaAt img x y)) img.height

/-- `findContentBounds` (src/main.ts:381-430): the four labelled loops, with
the loop defaults `top = 0`, `bottom = height`, `left = 0`, `right = width`
kept when no scan finds content. -/
def findContentBounds (img : Image) (threshold : Nat) : Bounds :=
  { top := (findBelow (rowHasContent img threshold) img.height).getD 0
    bottom :=
      match findLastBelow (rowHasContent img threshold) img.height with
      | some y => y + 1
      | none => img.height
    left := (findBelow (colHasContent img threshold) img.width).getD 0
    right :=
      match findLastBelow (colHasContent img threshold) img.width with
      | some x => x + 1
      | none => img.width }

/-- C3 (amended: for images with positive width and height): `findContentBounds`
returns the smallest rectangle containing all pixels whose alpha strictly
exceeds the threshold — every content pixel lies inside the box and each of the
four boundary rows/columns contains a content pixel — the box satisfies
`top < bottom ≤ height` and `left < right ≤ width`, and an image with no
content pixel yields the full extent `⟨0, height, 0, width⟩`. -/
theorem C3_bounds_correct (img : Image) (threshold : Nat)
    (hw : 0 < img.width) (hh : 0 < img.height) :
    ((findContentBounds img threshold).top < (findContentBounds img threshold).bottom ∧
      (findContentBounds img threshold).bottom ≤ img.height ∧
      (findContentBounds img threshold).left < (findContentBounds img threshold).right ∧
      (findContentBounds img threshold).right ≤ img.width) ∧
    (∀ x y, x < img.width → y < img.height → threshold < alphaAt img x y →
      (findContentBounds img threshold).top ≤ y ∧
      y < (findContentBounds img threshold).bottom ∧
      (findContentBounds img threshold).left ≤ x ∧
      x < (findContentBounds img threshold).right) ∧
    ((∃ x, x < img.width ∧ ∃ y, y < img.height ∧ threshold < alphaAt img x y) →
      (∃ x, x < img.width ∧ threshold < alphaAt img x (findContentBounds img threshold).top) ∧
      (∃ x, x < img.width ∧
        threshold < alphaAt img x ((findContentBounds img threshold).bottom - 1)) ∧
      (∃ y, y < img.height ∧ threshold < alphaAt img (findContentBounds img threshold).left y) ∧
      (∃ y, y < img.height ∧
        threshold < alphaAt img ((findContentBounds img threshold).right - 1) y)) ∧
    ((∀ x y, x < img.width → y < img.height → alphaAt img x y ≤ threshold) →
      findContentBounds img threshold = ⟨0, img.height, 0, img.width⟩) := by
  have hrow : ∀ y, rowHasContent img threshold y = true ↔
      ∃ x, x < img.width ∧ threshold < alphaAt img x y := by
    intro y
    simpa using anyBelow_iff (fun x => decide (threshold < alphaAt img x y)) img.width
  have hcol : ∀ x, colHasContent img threshold x = true ↔
      ∃ y, y < img.height ∧ threshold < alphaAt img x y := by
    intro x
    simpa using anyBelow_iff (fun y => decide (threshold < alphaAt img x y)) img.height
  by_cases hex : ∃ x, x < img.width ∧ ∃ y, y < img.height ∧ threshold < alphaAt img x y
  · obtain ⟨x0, hx0, y0, hy0, ha0⟩ := hex
    have hry0 : rowHasContent img threshold y0 = true := (hrow y0).mpr ⟨x0, hx0, ha0⟩
    have hcx0 : colHasContent img threshold x0 = true := (hcol x0).mpr ⟨y0, hy0, ha0⟩
    rcases hfb : findBelow (rowHasContent img threshold) img.height with _ | yt
    · exact absurd hfb (findBelow_isSome _ _ y0 hy0 hry0)
    rcases hflb : findLastBelow (rowHasContent img threshold) img.height with _ | yb
    · exact absurd hflb (findLastBelow_isSome _ _ y0 hy0 hry0)
    rcases hfbc : findBelow (colHasContent img threshold) img.width with _ | xt
    · exact absurd hfbc (findBelow_isSome _ _ x0 hx0 hcx0)
    rcases hflbc : findLastBelow (colHasContent img threshold) img.width with _ | xb
    · exact absurd hflbc (findLastBelow_isSome _ _ x0 hx0 hcx0)
    obtain ⟨hyt_lt, hyt_p, hyt_min⟩ := findBelow_some _ _ _ hfb
    obtain ⟨hyb_lt, hyb_p, hyb_max⟩ := findLastBelow_some _ _ _ hflb
    obtain ⟨hxt_lt, hxt_p, hxt_min⟩ := findBelow_some _ _ _ hfbc
    obtain ⟨hxb_lt, hxb_p, hxb_max⟩ := findLastBelow_some _ _ _ hflbc
    have hrow_le : ∀ y, y < img.height → rowHasContent img threshold y = true →
        yt ≤ y ∧ y ≤ yb := by
      intro y hy hp
      constructor
      · by_contra hlt
        push_neg at hlt
        rw [hyt_min y hlt] at hp; cases hp
      · by_contra hlt
        push_neg at hlt
        rw [hyb_max y hlt hy] at hp; cases hp
    have hcol_le : ∀ x, x < img.width → colHasContent img threshold x = true →
        xt ≤ x ∧ x ≤ xb := by
      intro x hx hp
      constructor
      · by_contra hlt
        push_neg at hlt
        rw [hxt_min x hlt] at hp; cases hp
      · by_contra hlt
        push_neg at hlt
        rw [hxb_max x hlt hx] at hp; cases hp
    have hytyb : yt ≤ yb := (hrow_le yt hyt_lt hyt_p).2
    have hxtxb : xt ≤ xb := (hcol_le xt hxt_lt hxt_p).2
    have hB : findContentBounds img threshold = ⟨yt, yb + 1, xt, xb + 1⟩ := by
      simp [findContentBounds, hfb, hflb, hfbc, hflbc]
    rw [hB]
    dsimp only
    refine ⟨⟨by omega, by omega, by omega, by omega⟩, ?_, ?_, ?_⟩
    · intro x y hx hy ha
      have h1 := hrow_le y hy ((hrow y).mpr ⟨x, hx, ha⟩)
      have h2 := hcol_le x hx ((hcol x).mpr ⟨y, hy, ha⟩)
      exact ⟨h1.1, by omega, h2.1, by omega⟩
    · intro _
      refine ⟨(hrow yt).mp hyt_p, ?_, (hcol xt).mp hxt_p, ?_⟩
      · simpa using (hrow yb).mp hyb_p
      · simpa using (hcol xb).mp hxb_p
    · intro hall
      have := hall x0 y0 hx0 hy0
      omega
  · have hrowf : ∀ y, y < img.height → rowHasContent img threshold y = false := by
      intro y hy
      cases hb : rowHasContent img threshold y
      · rfl
      · obtain ⟨x, hx, ha⟩ := (hrow y).mp hb
        exact absurd ⟨x, hx, y, hy, ha⟩ hex
    have hcolf : ∀ x, x < img.width → colHasContent img threshold x = false := by
      intro x hx
      cases hb : colHasContent img threshold x
      · rfl
      · obtain ⟨y, hy, ha⟩ := (hcol x).mp hb
        exact absurd ⟨x, hx, y, hy, ha⟩ hex
    have hfb : findBelow (rowHasContent img threshold) img.height = none := by
      rcases hfb : findBelow (rowHasContent img threshold) img.height with _ | yt
      · rfl
      · obtain ⟨h1, h2, _⟩ := findBelow_some _ _ _ hfb
        rw [hrowf yt h1] at h2; cases h2
    have hflb : findLastBelow (rowHasContent img threshold) img.height = none := by
      rcases hflb : findLastBelow (rowHasContent img threshold) img.height with _ | yb
      · rfl
      · obtain ⟨h1, h2, _⟩ := findLastBelow_some _ _ _ hflb
        rw [hrowf yb h1] at h2; cases h2
    have hfbc : findBelow (colHasContent img threshold) img.width = none := by
      rcases hfbc : findBelow (colHasContent img threshold) img.width with _ | xt
      · rfl
      · obtain ⟨h1, h2, _⟩ := findBelow_some _ _ _ hfbc
        rw [hcolf xt h1] at h2; cases h2
    have hflbc : findLastBelow (colHasContent img threshold) img.width = none := by
      rcases hflbc : findLastBelow (colHasContent img threshold) img.width with _ | xb
      · rfl
      · obtain ⟨h1, h2, _⟩ := findLastBelow_some _ _ _ hflbc
        rw [hcolf xb h1] at h2; cases h2
    have hB : findContentBounds img threshold = ⟨0, img.height, 0, img.width⟩ := by
      simp [findContentBounds, hfb, hflb, hfbc, hflbc]
    rw [hB]
    refine ⟨⟨hh, Nat.le_refl _, hw, Nat.le_refl _⟩, ?_, ?_, fun _ => rfl⟩
    · intro x y hx hy _
      exact ⟨Nat.zero_le y, hy, Nat.zero_le x, hx⟩
    · intro hex2
      exact absurd hex2 hex

/-- Counterexample to C3 as stated: on the (formally valid, `0 = 0*0*4`) empty
image the scans find nothing, the loop defaults give the zero-area box
`⟨0, 0, 0, 0⟩`, and `top < bottom` fails. -/
theorem C3_counterexample :
    findContentBounds ⟨0, 0, []⟩ 10 = ⟨0, 0, 0, 0⟩ ∧
    ¬((findContentBounds ⟨0, 0, []⟩ 10).top <
        (findContentBounds ⟨0, 0, []⟩ 10).bottom) := by
  decide

/-- Witness for C3 on a concrete 2×2 image whose only content pixel is `(1,0)`:
the hypotheses `0 < width` and `0 < height` are discharged at this input. -/
theorem C3_bounds_correct_witness :
    (0 : Nat) < 2 ∧
    ((findContentBounds ⟨2, 2, [0, 0, 0, 0, 0, 0, 0, 200, 0, 0, 0, 0, 0, 0, 0, 0]⟩ 10).top <
      (findContentBounds ⟨2, 2, [0, 0, 0, 0, 0, 0, 0, 200, 0, 0, 0, 0, 0, 0, 0, 0]⟩ 10).bottom ∧
     (findContentBounds ⟨2, 2, [0, 0, 0, 0, 0, 0, 0, 200, 0, 0, 0, 0, 0, 0, 0, 0]⟩ 10).bottom ≤ 2 ∧
     (findContentBounds ⟨2, 2, [0, 0, 0, 0, 0, 0, 0, 200, 0, 0, 0, 0, 0, 0, 0, 0]⟩ 10).left <
      (findContentBounds ⟨2, 2, [0, 0, 0, 0, 0, 0, 0, 200, 0, 0, 0, 0, 0, 0, 0, 0]⟩ 10).right ∧
     (findContentBounds ⟨2, 2, [0, 0, 0, 0, 0, 0, 0, 200, 0, 0, 0, 0, 0, 0, 0, 0]⟩ 10).right ≤ 2) :=
  ⟨by decide,
   (C3_bounds_correct ⟨2, 2, [0, 0, 0, 0, 0, 0, 0, 200, 0, 0, 0, 0, 0, 0, 0, 0]⟩ 10
      (by decide) (by decide)).1⟩

/-! ## Canvas Composer padding (PadToSquare branch of `autocropImage`,
src/unnamed/part_000:344-365) -/

structure Padding where
  left : Nat
  top : Nat
  right : Nat
  bottom : Nat
deriving Repr, DecidableEq

/-- The padding computation of the part_000 variant: `maxSide = max(w, h)`,
`padLeft = Math.floor((maxSide - width) / 2)`, `padTop` analogous, and the
remainders `maxSide - width - padLeft`, `maxSide - height - padTop`. -/
def computePadding (width height : Nat) : Padding :=
  let maxSide := max width height
  { left := (maxSide - width) / 2
    top := (maxSide - height) / 2
    right := maxSide - width - (maxSide - width) / 2
    bottom := maxSide - height - (maxSide - height) / 2 }

/-- C6: the padding centres the cropped content with the floor/remainder split,
so the two sides sum to the full leftover and any odd leftover pixel goes to
the right/bottom edge. -/
theorem C6_padding_split (width height : Nat) :
    (computePadding width height).left = (max width height - width) / 2 ∧
    (computePadding width height).top = (max width height - height) / 2 ∧
    (computePadding width height).left + (computePadding width height).right =
      max width height - width ∧
    (computePadding width height).top + (computePadding width height).bottom =
      max width height - height ∧
    (computePadding width height).right =
      (computePadding width height).left + (max width height - width) % 2 ∧
    (computePadding width height).bottom =
      (computePadding width height).top + (max width height - height) % 2 := by
  refine ⟨rfl, rfl, ?_, ?_, ?_, ?_⟩ <;>
    · simp only [computePadding]
      generalize max width height = s
      omega

/-! ## Background Detector (`detectBackgroundColor`, src/main.ts:311-368)

The corner loops run over signed coordinates: the corner origins are
`width - 20` / `height - 20` as JS integers, which go negative on images
smaller than 20px, and the only guard is `x >= width || y >= height`.  The
coordinate enumeration and the accumulation are embedded separately so the
sampled index set itself can be examined. -/

/-- Buffer index of coordinate `(x, y)`: `(y * width + x) * 4`. -/
def coordIdx (w : Nat) (c : Int × Int) : Int := (c.2 * (w : Int) + c.1) * 4

/-- The four corner origins (src/main.ts:316-321). -/
def cornerOrigins (w h : Int) : List (Int × Int) :=
  [(0, 0), (w - 20, 0), (0, h - 20), (w - 20, h - 20)]

/-- All corner coordinates the loops sample, in loop order, after the
`x >= width || y >= height` guard (src/main.ts:323-328). -/
def cornerSampleCoords (w h : Int) : List (Int × Int) :=
  (cornerOrigins w h).flatMap fun c =>
    (List.range 20).flatMap fun (dy : Nat) =>
      (List.range 20).filterMap fun (dx : Nat) =>
        if w ≤ c.1 + (dx : Int) ∨ h ≤ c.2 + (dy : Int) then none
        else some (c.1 + (dx : Int), c.2 + (dy : Int))

/-- `for (v = 0; v < n; v += 10)`: the multiples of 10 below `n`. -/
def stepTen (n : Nat) : List Nat :=
  (List.range n).filter (fun i => decide (i % 10 = 0))

/-- The border coordinates of the edge-sampling fallback, in loop order:
every 10th column paired with the top and bottom rows, then every 10th row
paired with the left and right columns (src/main.ts:341-364). -/
def borderSampleCoords (w h : Int) : List (Int × Int) :=
  ((stepTen w.toNat).flatMap fun x => [((x : Int), 0), ((x : Int), h - 1)]) ++
    ((stepTen h.toNat).flatMap fun y => [((0 : Int), (y : Int)), (w - 1, (y : Int))])

/-- Running per-channel sums and count of the detector. -/
structure SampleAcc where
  r : Option Nat
  g : Option Nat
  b : Option Nat
  count : Nat
deriving Repr, DecidableEq

/-- Accumulate the three colour bytes at buffer index `idx` (JS `r += ...`):
an out-of-buffer read contributes `undefined`, poisoning the sum to NaN. -/
def accumulate (img : Image) (acc : SampleAcc) (idx : Int) : SampleAcc :=
  { r := jsAdd acc.r (byteAt img.pixels idx)
    g := jsAdd acc.g (byteAt img.pixels (idx + 1))
    b := jsAdd acc.b (byteAt img.pixels (idx + 2))
    count := acc.count + 1 }

/-- One loop iteration: skip the pixel only when `pixels[idx+3] < 128`
evaluates true — an `undefined` alpha read compares false in JS, so such a
pixel is accumulated, not skipped. -/
def sampleStep (img : Image) (acc : SampleAcc) (c : Int × Int) : SampleAcc :=
  match byteAt img.pixels (coordIdx img.width c + 3) with
  | some a => if a < 128 then acc else accumulate img acc (coordIdx img.width c)
  | none => accumulate img acc (coordIdx img.width c)

/-- JS `Math.round(sum / count)` (round half up) for `count > 0`. -/
def jsRound (sum count : Nat) : Nat := (2 * sum + count) / (2 * count)

/-- `detectBackgroundColor` (src/main.ts:311-368): sample the corners, fall
back to the borders when fewer than 100 pixels qualified, return `null` on a
zero count and otherwise the rounded per-channel means. -/
def detectBackgroundColor (img : Image) : Option JsColor :=
  let acc1 := (cornerSampleCoords (img.width : Int) (img.height : Int)).foldl
    (sampleStep img) ⟨some 0, some 0, some 0, 0⟩
  let acc2 :=
    if acc1.count < 100 then
      (borderSampleCoords (img.width : Int) (img.height : Int)).foldl (sampleStep img) acc1
    else acc1
  if acc2.count = 0 then none
  else
    some ⟨acc2.r.map (fun s => jsRound s acc2.count),
          acc2.g.map (fun s => jsRound s acc2.count),
          acc2.b.map (fun s => jsRound s acc2.count)⟩

/-! Solid-colour test images. -/

/-- `n` consecutive RGBA pixels of one colour. -/
def solidPixels (r g b a : Nat) : Nat → Bytes
  | 0 => []
  | n + 1 => r :: g :: b :: a :: solidPixels r g b a n

/-- A `w × h` image of one solid colour. -/
def solidImage (w h r g b a : Nat) : Image := ⟨w, h, solidPixels r g b a (w * h)⟩

set_option maxRecDepth 100000 in
/-- Counterexample to C4 as stated: on a 10×10 image the corner origins are
negative and are not clamped — the loop guard only checks the upper bounds —
so the sampled coordinate `(-10, 0)` maps to buffer index `-40`, outside the
pixel buffer; its reads are `undefined` and the detector returns a colour whose
three channels are all NaN instead of a rounded mean. -/
theorem C4_counterexample :
    ((-10, 0) ∈ cornerSampleCoords 10 10) ∧
    coordIdx 10 (-10, 0) = -40 ∧
    byteAt (solidImage 10 10 7 7 7 255).pixels (coordIdx 10 (-10, 0) + 3) = none ∧
    detectBackgroundColor (solidImage 10 10 7 7 7 255) = some ⟨none, none, none⟩ := by
  decide

/-- A sampled coordinate qualifies when the skip test `pixels[idx+3] < 128`
evaluates false: its alpha byte is readable and at least 128, or — in the
out-of-buffer case — the `undefined` comparison is false. -/
def isQualifying (img : Image) (c : Int × Int) : Bool :=
  match byteAt img.pixels (coordIdx img.width c + 3) with
  | some a => decide (128 ≤ a)
  | none => true

/-- Red byte of the pixel sampled at coordinate `c`. -/
def chanR (img : Image) (c : Int × Int) : Nat :=
  (byteAt img.pixels (coordIdx img.width c)).getD 0

/-- Green byte of the pixel sampled at coordinate `c`. -/
def chanG (img : Image) (c : Int × Int) : Nat :=
  (byteAt img.pixels (coordIdx img.width c + 1)).getD 0

/-- Blue byte of the pixel sampled at coordinate `c`. -/
def chanB (img : Image) (c : Int × Int) : Nat :=
  (byteAt img.pixels (coordIdx img.width c + 2)).getD 0

def chanSumR (img : Image) (cs : List (Int × Int)) : Nat := (cs.map (chanR img)).sum

def chanSumG (img : Image) (cs : List (Int × Int)) : Nat := (cs.map (chanG img)).sum

def chanSumB (img : Image) (cs : List (Int × Int)) : Nat := (cs.map (chanB img)).sum

/-- Modelled from the spec (§4.1): the Background Detector described
declaratively — keep the qualifying corner samples, append the qualifying
border samples exactly when fewer than 100 corner samples qualified, return
`none` on an empty list and otherwise the per-channel mean over the qualifying
samples, rounded to nearest. -/
def detectSpec (img : Image) : Option JsColor :=
  let corners :=
    (cornerSampleCoords (img.width : Int) (img.height : Int)).filter (isQualifying img)
  let q :=
    if corners.length < 100 then
      corners ++
        (borderSampleCoords (img.width : Int) (img.height : Int)).filter (isQualifying img)
    else corners
  if q.length = 0 then none
  else
    some (mkColor (jsRound (chanSumR img q) q.length) (jsRound (chanSumG img q) q.length)
      (jsRound (chanSumB img q) q.length))

/-- The sampled index of `c` and the three bytes after it lie inside the
buffer. -/
def coordInBounds (img : Image) (c : Int × Int) : Prop :=
  0 ≤ coordIdx img.width c ∧ (coordIdx img.width c).toNat + 3 < img.pixels.length

theorem coordReads (img : Image) (c : Int × Int) (h : coordInBounds img c) :
    byteAt img.pixels (coordIdx img.width c) =
      some (img.pixels.getD (coordIdx img.width c).toNat 0) ∧
    byteAt img.pixels (coordIdx img.width c + 1) =
      some (img.pixels.getD ((coordIdx img.width c).toNat + 1) 0) ∧
    byteAt img.pixels (coordIdx img.width c + 2) =
      some (img.pixels.getD ((coordIdx img.width c).toNat + 2) 0) ∧
    byteAt img.pixels (coordIdx img.width c + 3) =
      some (img.pixels.getD ((coordIdx img.width c).toNat + 3) 0) := by
  obtain ⟨h0, h3⟩ := h
  have t1 : (coordIdx img.width c + 1).toNat = (coordIdx img.width c).toNat + 1 := by omega
  have t2 : (coordIdx img.width c + 2).toNat = (coordIdx img.width c).toNat + 2 := by omega
  have t3 : (coordIdx img.width c + 3).toNat = (coordIdx img.width c).toNat + 3 := by omega
  refine ⟨?_, ?_, ?_, ?_⟩ <;> dsimp only [byteAt]
  · rw [if_pos ⟨h0, by omega⟩]
  · rw [t1, if_pos ⟨by omega, by omega⟩]
  · rw [t2, if_pos ⟨by omega, by omega⟩]
  · rw [t3, if_pos ⟨by omega, by omega⟩]

/-- The detector loop, characterised: folding `sampleStep` over in-bounds
coordinates adds the per-channel sums of the qualifying samples and counts
them. -/
theorem sampleFold (img : Image) :
    ∀ (cs : List (Int × Int)) (R G B n : Nat),
      (∀ c ∈ cs, coordInBounds img c) →
      cs.foldl (sampleStep img) ⟨some R, some G, some B, n⟩ =
        ⟨some (R + chanSumR img (cs.filter (isQualifying img))),
         some (G + chanSumG img (cs.filter (isQualifying img))),
         some (B + chanSumB img (cs.filter (isQualifying img))),
         n + (cs.filter (isQualifying img)).length⟩
  | [], R, G, B, n, _ => by
      simp [chanSumR, chanSumG, chanSumB]
  | c :: rest, R, G, B, n, hin => by
      have hc := hin c (List.mem_cons_self c rest)
      have hreads := coordReads img c hc
      have hq : isQualifying img c =
          decide (128 ≤ img.pixels.getD ((coordIdx img.width c).toNat + 3) 0) := by
        rw [isQualifying, hreads.2.2.2]
      by_cases hqual : 128 ≤ img.pixels.getD ((coordIdx img.width c).toNat + 3) 0
      · have hstep : sampleStep img ⟨some R, some G, some B, n⟩ c =
            ⟨some (R + chanR img c), some (G + chanG img c),
             some (B + chanB img c), n + 1⟩ := by
          rw [sampleStep, hreads.2.2.2]
          dsimp only
          rw [if_neg (by omega)]
          simp [accumulate, jsAdd, chanR, chanG, chanB, hreads.1, hreads.2.1, hreads.2.2.1]
        have hfilter : (c :: rest).filter (isQualifying img) =
            c :: rest.filter (isQualifying img) := by
          rw [List.filter_cons_of_pos]
          rw [hq]
          exact decide_eq_true hqual
        rw [List.foldl_cons, hstep,
          sampleFold img rest (R + chanR img c) (G + chanG img c) (B + chanB img c) (n + 1)
            (fun d hd => hin d (List.mem_cons_of_mem c hd)),
          hfilter]
        simp only [chanSumR, chanSumG, chanSumB, List.map_cons, List.sum_cons,
          List.length_cons, SampleAcc.mk.injEq, Option.some.injEq]
        refine ⟨by omega, by omega, by omega, by omega⟩
      · have hstep : sampleStep img ⟨some R, some G, some B, n⟩ c =
            ⟨some R, some G, some B, n⟩ := by
          rw [sampleStep, hreads.2.2.2]
          dsimp only
          rw [if_pos (by omega)]
        have hfilter : (c :: rest).filter (isQualifying img) =
            rest.filter (isQualifying img) := by
          rw [List.filter_cons_of_neg]
          rw [hq]
          simpa using hqual
        rw [List.foldl_cons, hstep,
          sampleFold img rest R G B n (fun d hd => hin d (List.mem_cons_of_mem c hd)),
          hfilter]

/-- Coordinate bounds put the whole sampled pixel inside a well-formed
buffer. -/
theorem coordInBounds_of (img : Image)
    (hlen : img.pixels.length = 4 * (img.width * img.height)) (c : Int × Int)
    (hx0 : 0 ≤ c.1) (hx1 : c.1 < (img.width : Int)) (hy0 : 0 ≤ c.2)
    (hy1 : c.2 < (img.height : Int)) : coordInBounds img c := by
  obtain ⟨x, y⟩ := c
  dsimp only at hx0 hx1 hy0 hy1
  obtain ⟨xn, rfl⟩ := Int.eq_ofNat_of_zero_le hx0
  obtain ⟨yn, rfl⟩ := Int.eq_ofNat_of_zero_le hy0
  have hxw : xn < img.width := by omega
  have hyh : yn < img.height := by omega
  have key : yn * img.width + xn < img.width * img.height := by
    calc yn * img.width + xn < yn * img.width + img.width := by omega
      _ = (yn + 1) * img.width := by ring
      _ ≤ img.height * img.width := Nat.mul_le_mul_right _ (by omega)
      _ = img.width * img.height := Nat.mul_comm _ _
  have hidx : coordIdx img.width (↑xn, ↑yn) = (((yn * img.width + xn) * 4 : Nat) : Int) := by
    dsimp only [coordIdx]
    push_cast
    ring
  constructor
  · rw [hidx]
    positivity
  · rw [hidx, hlen, Int.toNat_natCast]
    omega

/-- Under `20 ≤ width` and `20 ≤ height` every corner sample passes both the
lower (no negative origins) and upper (loop guard) bounds. -/
theorem cornerCoords_inBounds (w h : Nat) (hw : 20 ≤ w) (hh : 20 ≤ h) :
    ∀ c ∈ cornerSampleCoords (w : Int) (h : Int),
      0 ≤ c.1 ∧ c.1 < (w : Int) ∧ 0 ≤ c.2 ∧ c.2 < (h : Int) := by
  intro c hc
  simp only [cornerSampleCoords, cornerOrigins, List.mem_flatMap, List.mem_filterMap,
    List.mem_range, List.mem_cons, List.not_mem_nil, or_false] at hc
  obtain ⟨o, ho, dy, hdy, dx, hdx, hval⟩ := hc
  by_cases hg : (w : Int) ≤ o.1 + (dx : Int) ∨ (h : Int) ≤ o.2 + (dy : Int)
  · rw [if_pos hg] at hval
    cases hval
  · rw [if_neg hg] at hval
    cases hval
    push_neg at hg
    obtain ⟨hg1, hg2⟩ := hg
    rcases ho with rfl | rfl | rfl | rfl <;>
      · dsimp only at hg1 hg2 ⊢
        refine ⟨?_, ?_, ?_, ?_⟩ <;> omega

/-- Every border sample lies inside the image for positive dimensions (the
borders are only reached with `20 ≤ w, h` in the theorems below). -/
theorem borderCoords_inBounds (w h : Nat) (hw : 1 ≤ w) (hh : 1 ≤ h) :
    ∀ c ∈ borderSampleCoords (w : Int) (h : Int),
      0 ≤ c.1 ∧ c.1 < (w : Int) ∧ 0 ≤ c.2 ∧ c.2 < (h : Int) := by
  intro c hc
  simp only [borderSampleCoords, List.mem_append, List.mem_flatMap, stepTen,
    List.mem_filter, List.mem_range, List.mem_cons, List.not_mem_nil, or_false] at hc
  rcases hc with ⟨x, ⟨hxr, _⟩, hcm⟩ | ⟨y, ⟨hyr, _⟩, hcm⟩ <;>
    rcases hcm with rfl | rfl <;>
      · dsimp only
        refine ⟨?_, ?_, ?_, ?_⟩ <;> omega

theorem solidPixels_length (r g b a : Nat) :
    ∀ n, (solidPixels r g b a n).length = 4 * n
  | 0 => rfl
  | n + 1 => by
      simp only [solidPixels, List.length_cons, solidPixels_length r g b a n]
      omega

/-- C4 (amended: for images at least 20px in both dimensions): every sampled
corner and border coordinate stays inside the image — the loop guard clamps
the corner regions at the far edges, and non-negativity of the origins needs
`20 ≤ width, height` — and the detector equals its declarative description:
alpha-below-128 samples are skipped, the border pass runs exactly when fewer
than 100 corner samples qualified, the result is `none` exactly on a zero
count and otherwise the rounded per-channel mean over the qualifying samples
(counted with multiplicity where corner regions overlap). -/
theorem C4_detector_characterization (img : Image)
    (hw : 20 ≤ img.width) (hh : 20 ≤ img.height)
    (hlen : img.pixels.length = 4 * (img.width * img.height)) :
    (∀ c ∈ cornerSampleCoords (img.width : Int) (img.height : Int) ++
        borderSampleCoords (img.width : Int) (img.height : Int),
      0 ≤ c.1 ∧ c.1 < (img.width : Int) ∧ 0 ≤ c.2 ∧ c.2 < (img.height : Int)) ∧
    detectBackgroundColor img = detectSpec img := by
  have hcb := cornerCoords_inBounds img.width img.height hw hh
  have hbb := borderCoords_inBounds img.width img.height (by omega) (by omega)
  have hcin : ∀ c ∈ cornerSampleCoords (img.width : Int) (img.height : Int),
      coordInBounds img c := fun c hc =>
    coordInBounds_of img hlen c (hcb c hc).1 (hcb c hc).2.1 (hcb c hc).2.2.1 (hcb c hc).2.2.2
  have hbin : ∀ c ∈ borderSampleCoords (img.width : Int) (img.height : Int),
      coordInBounds img c := fun c hc =>
    coordInBounds_of img hlen c (hbb c hc).1 (hbb c hc).2.1 (hbb c hc).2.2.1 (hbb c hc).2.2.2
  refine ⟨?_, ?_⟩
  · intro c hc
    rcases List.mem_append.mp hc with h | h
    exacts [hcb c h, hbb c h]
  · simp only [detectBackgroundColor, detectSpec]
    rw [sampleFold img _ 0 0 0 0 hcin]
    dsimp only
    simp only [Nat.zero_add]
    by_cases hlt : ((cornerSampleCoords (img.width : Int) (img.height : Int)).filter
        (isQualifying img)).length < 100
    · rw [if_pos hlt, if_pos hlt]
      rw [sampleFold img _ _ _ _ _ hbin]
      dsimp only
      simp only [chanSumR, chanSumG, chanSumB, List.filter_append, List.map_append,
        List.sum_append, List.length_append, mkColor, Option.map_some']
    · rw [if_neg hlt, if_neg hlt]
      simp only [mkColor, Option.map_some']

/-- Witness for C4 on a concrete solid 20×20 image, discharging the dimension
and buffer-length hypotheses there. -/
theorem C4_detector_characterization_witness :
    detectBackgroundColor (solidImage 20 20 1 2 3 255) =
      detectSpec (solidImage 20 20 1 2 3 255) :=
  (C4_detector_characterization (solidImage 20 20 1 2 3 255) (by decide) (by decide)
    (solidPixels_length 1 2 3 255 (20 * 20))).2

/-! ## Autocrop Pipeline (`autocropImage`, src/main.ts:262-309)

The sharp codec is an external collaborator (spec §2, §6): its three fallible
operations used by `autocropImage` — decode-to-raw-RGBA, the single
extract/resize/encode chain, and the re-encode used by `resizeOnly` — are a
`Codec` record.  The pipeline's own control flow (the try/catch with the
resize-only fallback) is embedded from the source. -/

/-- Error taxonomy of the spec (§7). -/
inductive PErr where
  | decodeErr
  | degenerateErr
  | encodeErr
deriving Repr, DecidableEq

structure Settings where
  targetSize : Nat
  trimThreshold : Nat
deriving Repr, DecidableEq

/-- Modelled from the spec: the codec capability interface of §6 as used by
`autocropImage` — `decodeRaw` for `sharp(input).ensureAlpha().raw()`,
`extractResizePng` for the `extract → resize(inside) → png` chain, and
`pngOnly` for `resizeOnly`'s re-encode of the original buffer. -/
structure Codec where
  decodeRaw : Bytes → Except PErr Image
  extractResizePng : Image → Bounds → Nat → Except PErr Bytes
  pngOnly : Bytes → Except PErr Bytes

/-- The masking stage of `autocropImage` (src/main.ts:276-279): detect the
background and, when a colour was found, zero matching alphas at the fixed
tolerance 30; when the detector returns null the masker is skipped. -/
def maskStage (img : Image) : Image :=
  match detectBackgroundColor img with
  | some bg => ⟨img.width, img.height, makeBackgroundTransparent img.pixels bg 30⟩
  | none => img

/-- The body of `autocropImage`'s try-block (src/main.ts:265-304): decode,
mask, find bounds, then extract/resize/encode. -/
def autocropBody (c : Codec) (s : Settings) (input : Bytes) : Except PErr Bytes :=
  match c.decodeRaw input with
  | .error e => .error e
  | .ok img =>
      c.extractResizePng (maskStage img) (findContentBounds (maskStage img) s.trimThreshold)
        s.targetSize

/-- `autocropImage` (src/main.ts:262-309): the catch-all handler sends any
failure of the try-block to `resizeOnly(inputBuffer)`; errors of the fallback
itself are not caught. -/
def autocropImage (c : Codec) (s : Settings) (input : Bytes) : Except PErr Bytes :=
  match autocropBody c s input with
  | .ok r => .ok r
  | .error _ => c.pngOnly input

/-! Concrete model codec (Modelled from the spec, §6): images are serialized
as `width :: height :: pixels`, extraction copies the sub-rectangle and fails
with a degenerate-geometry error on an empty or out-of-range area, resizing is
nearest-neighbour with sharp's aspect-preserving "inside" fit. -/

structure Pixel where
  r : Nat
  g : Nat
  b : Nat
  a : Nat
deriving Repr, DecidableEq

/-- The RGBA bytes of pixels `0 .. n-1` drawn from `f`, in buffer order. -/
def genPix (f : Nat → Pixel) : Nat → Bytes
  | 0 => []
  | n + 1 => genPix f n ++ [(f n).r, (f n).g, (f n).b, (f n).a]

/-- Build a `w × h` image from a pixel function. -/
def mkImage (w h : Nat) (f : Nat → Nat → Pixel) : Image :=
  ⟨w, h, genPix (fun p => f (p % w) (p / w)) (w * h)⟩

/-- Read pixel `(x, y)` of an image (defaults only hit out of range). -/
def pixelAt (img : Image) (x y : Nat) : Pixel :=
  ⟨img.pixels.getD ((y * img.width + x) * 4) 0,
   img.pixels.getD ((y * img.width + x) * 4 + 1) 0,
   img.pixels.getD ((y * img.width + x) * 4 + 2) 0,
   img.pixels.getD ((y * img.width + x) * 4 + 3) 0⟩

/-- Modelled from the spec: `extract` of the codec capability (§6), copying
the bounds rectangle; a zero-area or out-of-range area is the degenerate
geometry error of §7. -/
def modelExtract (img : Image) (b : Bounds) : Except PErr Image :=
  if b.left < b.right ∧ b.top < b.bottom ∧ b.right ≤ img.width ∧ b.bottom ≤ img.height then
    .ok (mkImage (b.right - b.left) (b.bottom - b.top)
      (fun x y => pixelAt img (b.left + x) (b.top + y)))
  else .error .degenerateErr

/-- Modelled from the spec: output dimensions of an aspect-preserving resize
into a `t × t` box ("inside"/"contain" fit). -/
def fitInsideDims (w h t : Nat) : Nat × Nat := (t * w / max w h, t * h / max w h)

/-- Modelled from the spec: resize to `tw × th` by nearest-neighbour
sampling (the spec only requires a named resampling filter at this
boundary). -/
def modelResize (img : Image) (tw th : Nat) : Image :=
  mkImage tw th (fun x y => pixelAt img (x * img.width / tw) (y * img.height / th))

def modelResizeInside (img : Image) (t : Nat) : Image :=
  modelResize img (fitInsideDims img.width img.height t).1
    (fitInsideDims img.width img.height t).2

/-- Modelled from the spec: PNG encoding, serialized as
`width :: height :: pixels`. -/
def encodeRaw (img : Image) : Bytes := img.width :: img.height :: img.pixels

/-- Modelled from the spec: decode of the serialized form, failing on a
malformed buffer (§7 `DecodeError`). -/
def modelDecode : Bytes → Except PErr Image
  | w :: h :: px => if px.length = 4 * (w * h) then .ok ⟨w, h, px⟩ else .error .decodeErr
  | _ => .error .decodeErr

def modelCodec : Codec where
  decodeRaw := modelDecode
  extractResizePng := fun img b t =>
    (modelExtract img b).map (fun e => encodeRaw (modelResizeInside e t))
  pngOnly := fun input => (modelDecode input).map encodeRaw

/-- A direct resize of the input at the target size — the comparison object of
the spec's degenerate-fallback property (§8). -/
def directResize (input : Bytes) (t : Nat) : Except PErr Bytes :=
  (modelDecode input).map (fun img => encodeRaw (modelResizeInside img t))

/-- A codec whose extract/resize/encode chain fails with an encode error while
plain re-encoding of the original succeeds — e.g. the resize step runs out of
resources on a large target while the passthrough re-encode is fine. -/
def failEncCodec : Codec where
  decodeRaw := modelDecode
  extractResizePng := fun _ _ _ => .error .encodeErr
  pngOnly := fun input => (modelDecode input).map encodeRaw

set_option maxRecDepth 100000 in
/-- Counterexample to C1 as stated: on a decodable 1×1 input whose content
bounds are the non-degenerate full pixel, an *encode* failure of the
extract/resize/encode chain is absorbed by the catch-all handler — the call
returns the resize-only fallback's output instead of propagating the encode
error as fatal. -/
theorem C1_counterexample :
    autocropImage failEncCodec ⟨200, 10⟩ [1, 1, 9, 9, 9, 255] = .ok [1, 1, 9, 9, 9, 255] ∧
    failEncCodec.extractResizePng (maskStage ⟨1, 1, [9, 9, 9, 255]⟩)
      (findContentBounds (maskStage ⟨1, 1, [9, 9, 9, 255]⟩) 10) 200 = .error .encodeErr ∧
    findContentBounds (maskStage ⟨1, 1, [9, 9, 9, 255]⟩) 10 = ⟨0, 1, 0, 1⟩ := by
  refine ⟨rfl, rfl, ?_⟩
  decide

/-- C1 (amended): main.ts's `autocropImage` wraps the *entire* pipeline —
decode, masking, bounds, extract/resize/encode — in one catch-all whose
handler is `resizeOnly(inputBuffer)`: every failure of the try-block,
whatever its cause, is absorbed into the resize-only fallback, and only the
fallback's own outcome (success or error) reaches the caller; the chain's
result is returned unchanged when no step fails. -/
theorem C1_fallback_on_any_error (c : Codec) (s : Settings) (input : Bytes) :
    (∀ e, c.decodeRaw input = .error e → autocropImage c s input = c.pngOnly input) ∧
    (∀ img e, c.decodeRaw input = .ok img →
      c.extractResizePng (maskStage img) (findContentBounds (maskStage img) s.trimThreshold)
        s.targetSize = .error e →
      autocropImage c s input = c.pngOnly input) ∧
    (∀ img r, c.decodeRaw input = .ok img →
      c.extractResizePng (maskStage img) (findContentBounds (maskStage img) s.trimThreshold)
        s.targetSize = .ok r →
      autocropImage c s input = .ok r) := by
  refine ⟨?_, ?_, ?_⟩
  · intro e hdec
    simp [autocropImage, autocropBody, hdec]
  · intro img e hdec hchain
    simp [autocropImage, autocropBody, hdec, hchain]
  · intro img r hdec hchain
    simp [autocropImage, autocropBody, hdec, hchain]

set_option maxRecDepth 100000 in
/-- Witness for C1 with the model codec on a 1×1 input at target size 2: the
decode and chain hypotheses are discharged by evaluation and the pipeline
returns the chain's output. -/
theorem C1_fallback_on_any_error_witness :
    autocropImage modelCodec ⟨2, 10⟩ [1, 1, 9, 9, 9, 255] =
      .ok [2, 2, 9, 9, 9, 255, 9, 9, 9, 255, 9, 9, 9, 255, 9, 9, 9, 255] :=
  (C1_fallback_on_any_error modelCodec ⟨2, 10⟩ [1, 1, 9, 9, 9, 255]).2.2
    ⟨1, 1, [9, 9, 9, 255]⟩ [2, 2, 9, 9, 9, 255, 9, 9, 9, 255, 9, 9, 9, 255, 9, 9, 9, 255]
    rfl rfl

/-! ## Solid-image lemmas for the degenerate-fallback property (C5) -/

theorem solidPixels_getD (r g b a : Nat) :
    ∀ n k, k < n →
      ((solidPixels r g b a n).getD (4 * k) 0 = r) ∧
      ((solidPixels r g b a n).getD (4 * k + 1) 0 = g) ∧
      ((solidPixels r g b a n).getD (4 * k + 2) 0 = b) ∧
      ((solidPixels r g b a n).getD (4 * k + 3) 0 = a)
  | n + 1, 0, _ => by simp [solidPixels]
  | n + 1, k + 1, h => by
      have ih := solidPixels_getD r g b a n k (by omega)
      have e0 : 4 * (k + 1) = 4 * k + 1 + 1 + 1 + 1 := by omega
      have e1 : 4 * (k + 1) + 1 = 4 * k + 1 + 1 + 1 + 1 + 1 := by omega
      have e2 : 4 * (k + 1) + 2 = 4 * k + 2 + 1 + 1 + 1 + 1 := by omega
      have e3 : 4 * (k + 1) + 3 = 4 * k + 3 + 1 + 1 + 1 + 1 := by omega
      simp only [solidPixels, e0, e1, e2, e3, List.getD_cons_succ]
      exact ih
  | 0, k, h => by omega

theorem genPix_congr : ∀ (n : Nat) (f g : Nat → Pixel), (∀ i, i < n → f i = g i) →
    genPix f n = genPix g n
  | 0, _, _, _ => rfl
  | n + 1, f, g, h => by
      rw [genPix, genPix, genPix_congr n f g (fun i hi => h i (by omega)),
        h n (by omega)]

theorem solidPixels_append (r g b a : Nat) :
    ∀ n, solidPixels r g b a n ++ [r, g, b, a] = solidPixels r g b a (n + 1)
  | 0 => rfl
  | n + 1 => by
      simp only [solidPixels, List.cons_append, solidPixels_append r g b a n]

theorem genPix_const (P : Pixel) :
    ∀ n, genPix (fun _ => P) n = solidPixels P.r P.g P.b P.a n
  | 0 => rfl
  | n + 1 => by
      rw [genPix, genPix_const P n, solidPixels_append]

/-- Reading inside a solid image gives its colour. -/
theorem pixelAt_solid (w h r g b a x y : Nat) (hx : x < w) (hy : y < h) :
    pixelAt (solidImage w h r g b a) x y = ⟨r, g, b, a⟩ := by
  have hk : y * w + x < w * h := by
    calc y * w + x < y * w + w := by omega
      _ = (y + 1) * w := by ring
      _ ≤ h * w := Nat.mul_le_mul_right _ (by omega)
      _ = w * h := Nat.mul_comm _ _
  have hget := solidPixels_getD r g b a (w * h) (y * w + x) hk
  have e0 : (y * w + x) * 4 = 4 * (y * w + x) := by ring
  show Pixel.mk _ _ _ _ = _
  dsimp only [solidImage]
  rw [e0, hget.1, hget.2.1, hget.2.2.1, hget.2.2.2]

theorem sum_map_const {α : Type} (f : α → Nat) (r : Nat) :
    ∀ l : List α, (∀ x ∈ l, f x = r) → (l.map f).sum = l.length * r
  | [], _ => by simp
  | x :: l, h => by
      rw [List.map_cons, List.sum_cons, sum_map_const f r l (fun y hy => h y (by simp [hy])),
        h x (by simp), List.length_cons, Nat.succ_mul]
      omega

theorem jsRound_exact (n r : Nat) (hn : 0 < n) : jsRound (n * r) n = r := by
  rw [jsRound, show 2 * (n * r) + n = (2 * r + 1) * n by ring,
    Nat.mul_div_mul_right _ _ hn]
  omega

theorem anyBelow_false (p : Nat → Bool) (hp : ∀ i, p i = false) :
    ∀ n, anyBelow p n = false
  | 0 => rfl
  | n + 1 => by rw [anyBelow, anyBelow_false p hp n, hp n]; rfl

theorem findBelow_none_of (p : Nat → Bool) (hp : ∀ i, p i = false) :
    ∀ n, findBelow p n = none
  | 0 => rfl
  | n + 1 => by rw [findBelow, findBelow_none_of p hp n, hp n]; rfl

theorem findLastBelow_none_of (p : Nat → Bool) (hp : ∀ i, p i = false) :
    ∀ n, findLastBelow p n = none
  | 0 => rfl
  | n + 1 => by rw [findLastBelow, hp n, findLastBelow_none_of p hp n]; rfl

/-- Masking a solid opaque buffer with its own colour turns every alpha to 0. -/
theorem mask_solid (r g b : Nat) :
    ∀ n, makeBackgroundTransparent (solidPixels r g b 255 n) (mkColor r g b) 30 =
      solidPixels r g b 0 n
  | 0 => rfl
  | n + 1 => by
      have hc : pixelClose r g b (mkColor r g b) 30 = true := by
        simp [pixelClose, chanClose, mkColor, absDiff]
      simp only [solidPixels, makeBackgroundTransparent, hc, if_true,
        mask_solid r g b n]

/-- An all-transparent solid image has no content pixel at any threshold, so
the bounds default to the full extent. -/
theorem bounds_solid_alpha0 (w h r g b thr : Nat) :
    findContentBounds (solidImage w h r g b 0) thr = ⟨0, h, 0, w⟩ := by
  have halpha : ∀ x y, alphaAt (solidImage w h r g b 0) x y = 0 := by
    intro x y
    rw [alphaAt]
    dsimp only [solidImage]
    by_cases hk : y * w + x < w * h
    · have e3 : (y * w + x) * 4 + 3 = 4 * (y * w + x) + 3 := by ring
      rw [e3, (solidPixels_getD r g b 0 (w * h) (y * w + x) hk).2.2.2]
    · apply List.getD_eq_default
      rw [solidPixels_length]
      omega
  have hrow : ∀ y, rowHasContent (solidImage w h r g b 0) thr y = false := by
    intro y
    apply anyBelow_false
    intro x
    rw [halpha x y]
    simp
  have hcol : ∀ x, colHasContent (solidImage w h r g b 0) thr x = false := by
    intro x
    apply anyBelow_false
    intro y
    rw [halpha x y]
    simp
  rw [findContentBounds]
  rw [findBelow_none_of _ hrow, findLastBelow_none_of _ hrow,
    findBelow_none_of _ hcol, findLastBelow_none_of _ hcol]
  rfl

/-- Sampling inside a solid image reads its four bytes. -/
theorem solid_coordReads (w h r g b a : Nat) (c : Int × Int)
    (hx0 : 0 ≤ c.1) (hx1 : c.1 < (w : Int)) (hy0 : 0 ≤ c.2) (hy1 : c.2 < (h : Int)) :
    byteAt (solidImage w h r g b a).pixels
      (coordIdx (solidImage w h r g b a).width c) = some r ∧
    byteAt (solidImage w h r g b a).pixels
      (coordIdx (solidImage w h r g b a).width c + 1) = some g ∧
    byteAt (solidImage w h r g b a).pixels
      (coordIdx (solidImage w h r g b a).width c + 2) = some b ∧
    byteAt (solidImage w h r g b a).pixels
      (coordIdx (solidImage w h r g b a).width c + 3) = some a := by
  have hin : coordInBounds (solidImage w h r g b a) c :=
    coordInBounds_of _ (solidPixels_length r g b a (w * h)) c hx0 hx1 hy0 hy1
  have hreads := coordReads (solidImage w h r g b a) c hin
  obtain ⟨x, y⟩ := c
  dsimp only at hx0 hx1 hy0 hy1
  obtain ⟨xn, rfl⟩ := Int.eq_ofNat_of_zero_le hx0
  obtain ⟨yn, rfl⟩ := Int.eq_ofNat_of_zero_le hy0
  have hk : yn * w + xn < w * h := by
    calc yn * w + xn < yn * w + w := by omega
      _ = (yn + 1) * w := by ring
      _ ≤ h * w := Nat.mul_le_mul_right _ (by omega)
      _ = w * h := Nat.mul_comm _ _
  have hidx : (coordIdx (solidImage w h r g b a).width ((xn : Int), (yn : Int))).toNat =
      4 * (yn * w + xn) := by
    dsimp only [coordIdx, solidImage]
    have hcast : ((yn : Int) * (w : Int) + (xn : Int)) * 4 =
        (((yn * w + xn) * 4 : Nat) : Int) := by
      push_cast
      ring
    rw [hcast, Int.toNat_natCast]
    ring
  have hget := solidPixels_getD r g b a (w * h) (yn * w + xn) hk
  refine ⟨?_, ?_, ?_, ?_⟩
  · rw [hreads.1, hidx]
    dsimp only [solidImage]
    rw [hget.1]
  · rw [hreads.2.1, hidx]
    dsimp only [solidImage]
    rw [hget.2.1]
  · rw [hreads.2.2.1, hidx]
    dsimp only [solidImage]
    rw [hget.2.2.1]
  · rw [hreads.2.2.2, hidx]
    dsimp only [solidImage]
    rw [hget.2.2.2]

set_option maxRecDepth 100000 in
/-- The detector on a solid opaque 50×50 image returns exactly its colour:
all 1600 corner samples are in bounds, opaque and of that colour, the border
fallback is not taken, and the rounded mean of a constant list is the
constant. -/
theorem detect_solid50 (r g b : Nat) :
    detectBackgroundColor (solidImage 50 50 r g b 255) = some (mkColor r g b) := by
  have hb := cornerCoords_inBounds 50 50 (by omega) (by omega)
  have hlen : (solidImage 50 50 r g b 255).pixels.length = 4 * (50 * 50) :=
    solidPixels_length r g b 255 (50 * 50)
  have hcin : ∀ c ∈ cornerSampleCoords ((50 : Nat) : Int) ((50 : Nat) : Int),
      coordInBounds (solidImage 50 50 r g b 255) c := fun c hc =>
    coordInBounds_of _ hlen c (hb c hc).1 (hb c hc).2.1 (hb c hc).2.2.1 (hb c hc).2.2.2
  have hreads : ∀ c ∈ cornerSampleCoords ((50 : Nat) : Int) ((50 : Nat) : Int),
      byteAt (solidImage 50 50 r g b 255).pixels
        (coordIdx (solidImage 50 50 r g b 255).width c) = some r ∧
      byteAt (solidImage 50 50 r g b 255).pixels
        (coordIdx (solidImage 50 50 r g b 255).width c + 1) = some g ∧
      byteAt (solidImage 50 50 r g b 255).pixels
        (coordIdx (solidImage 50 50 r g b 255).width c + 2) = some b ∧
      byteAt (solidImage 50 50 r g b 255).pixels
        (coordIdx (solidImage 50 50 r g b 255).width c + 3) = some 255 := fun c hc =>
    solid_coordReads 50 50 r g b 255 c (hb c hc).1 (hb c hc).2.1 (hb c hc).2.2.1
      (hb c hc).2.2.2
  have hqual : ∀ c ∈ cornerSampleCoords ((50 : Nat) : Int) ((50 : Nat) : Int),
      isQualifying (solidImage 50 50 r g b 255) c = true := by
    intro c hc
    rw [isQualifying, (hreads c hc).2.2.2]
    rfl
  have hchR : ∀ c ∈ cornerSampleCoords ((50 : Nat) : Int) ((50 : Nat) : Int),
      chanR (solidImage 50 50 r g b 255) c = r := by
    intro c hc
    rw [chanR, (hreads c hc).1]
    rfl
  have hchG : ∀ c ∈ cornerSampleCoords ((50 : Nat) : Int) ((50 : Nat) : Int),
      chanG (solidImage 50 50 r g b 255) c = g := by
    intro c hc
    rw [chanG, (hreads c hc).2.1]
    rfl
  have hchB : ∀ c ∈ cornerSampleCoords ((50 : Nat) : Int) ((50 : Nat) : Int),
      chanB (solidImage 50 50 r g b 255) c = b := by
    intro c hc
    rw [chanB, (hreads c hc).2.2.1]
    rfl
  have hlen1600 : (cornerSampleCoords ((50 : Nat) : Int) ((50 : Nat) : Int)).length = 1600 := by
    decide
  simp only [detectBackgroundColor,
    show (solidImage 50 50 r g b 255).width = 50 from rfl,
    show (solidImage 50 50 r g b 255).height = 50 from rfl]
  rw [sampleFold _ _ 0 0 0 0 hcin]
  dsimp only
  rw [List.filter_eq_self.mpr hqual]
  rw [chanSumR, sum_map_const _ r _ hchR, chanSumG, sum_map_const _ g _ hchG,
    chanSumB, sum_map_const _ b _ hchB, hlen1600]
  have h100 : ¬((0 + 1600 : Nat) < 100) := by omega
  rw [if_neg h100]
  have h0 : ¬((0 + 1600 : Nat) = 0) := by omega
  rw [if_neg h0]
  simp only [Nat.zero_add, Option.map_some', mkColor]
  rw [jsRound_exact 1600 r (by omega), jsRound_exact 1600 g (by omega),
    jsRound_exact 1600 b (by omega)]

/-- Extracting the full extent of a solid image returns it unchanged. -/
theorem extract_full_solid (w h r g b a : Nat) (hw : 0 < w) (hh : 0 < h) :
    modelExtract (solidImage w h r g b a) ⟨0, h, 0, w⟩ = .ok (solidImage w h r g b a) := by
  rw [modelExtract]
  rw [if_pos]
  · have hgen : ∀ p, p < w * h →
        pixelAt (solidImage w h r g b a) (0 + p % w) (0 + p / w) = ⟨r, g, b, a⟩ := by
      intro p hp
      rw [Nat.zero_add, Nat.zero_add]
      exact pixelAt_solid w h r g b a (p % w) (p / w) (Nat.mod_lt p hw)
        (Nat.div_lt_of_lt_mul hp)
    dsimp only
    rw [Nat.sub_zero, Nat.sub_zero, mkImage,
      genPix_congr (w * h) _ (fun _ => (⟨r, g, b, a⟩ : Pixel)) hgen, genPix_const]
    rfl
  · exact ⟨hw, hh, Nat.le_refl _, Nat.le_refl _⟩

/-- Nearest-neighbour resizing of a solid image is the solid image at the
target dimensions. -/
theorem resize_solid (w h tw th r g b a : Nat) (hw : 0 < w) (hh : 0 < h) :
    modelResize (solidImage w h r g b a) tw th = solidImage tw th r g b a := by
  rw [modelResize]
  have hgen : ∀ p, p < tw * th →
      pixelAt (solidImage w h r g b a)
        ((p % tw) * (solidImage w h r g b a).width / tw)
        ((p / tw) * (solidImage w h r g b a).height / th) = ⟨r, g, b, a⟩ := by
    intro p hp
    rcases Nat.eq_zero_or_pos tw with htw | htw
    · rw [htw, Nat.zero_mul] at hp
      omega
    rcases Nat.eq_zero_or_pos th with hth | hth
    · rw [hth, Nat.mul_zero] at hp
      omega
    have hx : p % tw < tw := Nat.mod_lt p htw
    have hy : p / tw < th := Nat.div_lt_of_lt_mul hp
    have hxc : (p % tw) * w / tw < w :=
      Nat.div_lt_of_lt_mul (Nat.mul_lt_mul_of_lt_of_le hx (Nat.le_refl w) hw)
    have hyc : (p / tw) * h / th < h :=
      Nat.div_lt_of_lt_mul (Nat.mul_lt_mul_of_lt_of_le hy (Nat.le_refl h) hh)
    exact pixelAt_solid w h r g b a _ _ hxc hyc
  rw [mkImage, genPix_congr (tw * th) _ (fun _ => (⟨r, g, b, a⟩ : Pixel)) hgen,
    genPix_const]
  rfl

/-- Resize-inside of a solid square image at target `t` is the solid `t × t`
image. -/
theorem resizeInside_solid_sq (s t r g b a : Nat) (hs : 0 < s) :
    modelResizeInside (solidImage s s r g b a) t = solidImage t t r g b a := by
  rw [modelResizeInside]
  have hfit : fitInsideDims (solidImage s s r g b a).width
      (solidImage s s r g b a).height t = (t, t) := by
    show fitInsideDims s s t = (t, t)
    rw [fitInsideDims, max_self, Nat.mul_div_cancel t hs]
  rw [hfit]
  exact resize_solid s s t t r g b a hs hs

/-- Generic success case of the pipeline: when decode and the
extract/resize/encode chain both succeed, `autocropImage` returns the chain's
output. -/
theorem autocropImage_ok (c : Codec) (s : Settings) (input : Bytes) (img : Image)
    (out : Bytes) (hdec : c.decodeRaw input = .ok img)
    (hchain : c.extractResizePng (maskStage img)
      (findContentBounds (maskStage img) s.trimThreshold) s.targetSize = .ok out) :
    autocropImage c s input = .ok out := by
  simp [autocropImage, autocropBody, hdec, hchain]

/-- Decoding the serialized solid opaque 50×50 image. -/
theorem decode_solid50 (r g b : Nat) :
    modelCodec.decodeRaw (encodeRaw (solidImage 50 50 r g b 255)) =
      .ok (solidImage 50 50 r g b 255) := by
  have hproj1 : modelCodec.decodeRaw = modelDecode := rfl
  have henc : encodeRaw (solidImage 50 50 r g b 255) =
      50 :: 50 :: solidPixels r g b 255 (50 * 50) := rfl
  rw [hproj1, henc, modelDecode, if_pos (solidPixels_length r g b 255 (50 * 50))]
  rfl

/-- The masking stage turns the solid opaque 50×50 image fully transparent:
the detector returns exactly the solid colour and every pixel matches it. -/
theorem maskStage_solid50 (r g b : Nat) :
    maskStage (solidImage 50 50 r g b 255) = solidImage 50 50 r g b 0 := by
  rw [maskStage, detect_solid50]
  show Image.mk _ _ _ = _
  rw [show (solidImage 50 50 r g b 255).pixels = solidPixels r g b 255 (50 * 50) from rfl,
    mask_solid]
  rfl

/-- The extract/resize/encode chain on the all-transparent solid image at its
full-extent bounds. -/
theorem chain_solid50 (r g b t thr : Nat) :
    modelCodec.extractResizePng (solidImage 50 50 r g b 0)
      (findContentBounds (solidImage 50 50 r g b 0) thr) t =
      .ok (encodeRaw (solidImage t t r g b 0)) := by
  have hproj2 : modelCodec.extractResizePng = fun img b t =>
      Except.map (fun e => encodeRaw (modelResizeInside e t)) (modelExtract img b) := rfl
  rw [hproj2, bounds_solid_alpha0]
  dsimp only
  rw [extract_full_solid 50 50 r g b 0 (by omega) (by omega)]
  dsimp only [Except.map]
  rw [resizeInside_solid_sq 50 t r g b 0 (by omega)]

/-- The whole main.ts pipeline on a solid opaque 50×50 input with the model
codec: the detector finds the solid colour, the masker clears every alpha, the
bounds default to the full extent, and the output is the `t × t` solid image
with alpha 0. -/
theorem autocrop_solid50 (r g b t thr : Nat) :
    autocropImage modelCodec ⟨t, thr⟩ (encodeRaw (solidImage 50 50 r g b 255)) =
      .ok (encodeRaw (solidImage t t r g b 0)) := by
  refine autocropImage_ok _ _ _ (solidImage 50 50 r g b 255) _ (decode_solid50 r g b) ?_
  rw [maskStage_solid50]
  exact chain_solid50 r g b t thr

/-- A direct resize of the solid opaque 50×50 input at target `t` is the solid
opaque `t × t` image. -/
theorem direct_solid50 (r g b t : Nat) :
    directResize (encodeRaw (solidImage 50 50 r g b 255)) t =
      .ok (encodeRaw (solidImage t t r g b 255)) := by
  have henc : encodeRaw (solidImage 50 50 r g b 255) =
      50 :: 50 :: solidPixels r g b 255 (50 * 50) := rfl
  rw [directResize, henc, modelDecode, if_pos (solidPixels_length r g b 255 (50 * 50))]
  dsimp only [Except.map]
  rw [show (Image.mk 50 50 (solidPixels r g b 255 (50 * 50))) =
      solidImage 50 50 r g b 255 from rfl,
    resizeInside_solid_sq 50 t r g b 255 (by omega)]

/-- Counterexample to C5 as stated: the solid opaque 50×50 image runs through
the pipeline without error and yields a `targetSize × targetSize` output, but
that output is *not* a direct resize of the input — the background masker has
turned the entire image transparent, so every alpha byte is 0 where the direct
resize keeps 255. -/
theorem C5_counterexample :
    autocropImage modelCodec ⟨2, 10⟩ (encodeRaw (solidImage 50 50 100 100 100 255)) =
      .ok (encodeRaw (solidImage 2 2 100 100 100 0)) ∧
    directResize (encodeRaw (solidImage 50 50 100 100 100 255)) 2 =
      .ok (encodeRaw (solidImage 2 2 100 100 100 255)) ∧
    encodeRaw (solidImage 2 2 100 100 100 0) ≠
      encodeRaw (solidImage 2 2 100 100 100 255) :=
  ⟨autocrop_solid50 100 100 100 2 10, direct_solid50 100 100 100 2, by decide⟩

/-- C5 (amended): for every colour, target size and trim threshold, the full
main.ts pipeline on a fully solid-colour opaque 50×50 input does not error and
produces exactly the `targetSize × targetSize` output equal to a direct resize
of the input *with every alpha byte set to 0* — the detector matches the solid
background and the masker clears the whole image's alpha, so the RGB bytes
agree with the direct resize but the alpha bytes do not. -/
theorem C5_solid_pipeline (r g b t thr : Nat) :
    autocropImage modelCodec ⟨t, thr⟩ (encodeRaw (solidImage 50 50 r g b 255)) =
      .ok (encodeRaw (solidImage t t r g b 0)) ∧
    directResize (encodeRaw (solidImage 50 50 r g b 255)) t =
      .ok (encodeRaw (solidImage t t r g b 255)) :=
  ⟨autocrop_solid50 r g b t thr, direct_solid50 r g b t⟩

/-! ## Storage collaborator and `processImage` (src/main.ts:206-260)

The Obsidian vault is an external collaborator (spec §6): it is modelled from
the spec as a store of path-keyed byte files plus a set of folders, with
atomic whole-file reads and writes.  `processImage`'s own control flow — the
sharp-availability check, the in-flight set, backup creation, the write-back
and the catch handler — is embedded from the source.  Paths are lists of
characters; the backup-path derivation mirrors the JS `substring`/
`lastIndexOf` arithmetic including the no-slash case. -/

abbrev Path := List Char

/-- Index of the last `/` in a path (JS `lastIndexOf("/")`, `none` for -1). -/
def lastSlashPos (p : Path) : Option Nat :=
  findLastBelow (fun i => decide (p.getD i ' ' = '/')) p.length

/-- `filePath.substring(0, lastIndexOf("/"))` (src/main.ts:186). -/
def dirName (p : Path) : Path :=
  match lastSlashPos p with
  | some i => p.take i
  | none => []

/-- `filePath.substring(lastIndexOf("/") + 1)` (src/main.ts:187). -/
def fileName (p : Path) : Path :=
  match lastSlashPos p with
  | some i => p.drop (i + 1)
  | none => p

/-- `getBackupPath` (src/main.ts:185-189): `<dir>/_originals/<name>`. -/
def getBackupPath (p : Path) : Path :=
  dirName p ++ "/_originals/".toList ++ fileName p

/-- The backup path is always 11 or 12 characters longer than the path itself,
so it never aliases the original file. -/
theorem getBackupPath_ne (p : Path) : getBackupPath p ≠ p := by
  intro h
  have hlen := congrArg List.length h
  rw [getBackupPath] at hlen
  rcases hls : lastSlashPos p with _ | i
  · rw [dirName, fileName, hls] at hlen
    simp only [List.length_append, List.length_nil] at hlen
    have h12 : ("/_originals/".toList).length = 12 := rfl
    omega
  · have hi : i < p.length := (findLastBelow_some _ _ _ hls).1
    rw [dirName, fileName, hls] at hlen
    simp only [List.length_append, List.length_take, List.length_drop] at hlen
    have h12 : ("/_originals/".toList).length = 12 := rfl
    omega

/-- Modelled from the spec: the storage collaborator (§6) — path-keyed files
and folders, with whole-file reads and writes. -/
structure Vault where
  files : List (Path × Bytes)
  folders : List Path
deriving DecidableEq

/-- Look a file up by path. -/
def readFile : List (Path × Bytes) → Path → Option Bytes
  | [], _ => none
  | (q, bs) :: rest, p => if q = p then some bs else readFile rest p

/-- Write a file (create or replace). -/
def setFile : List (Path × Bytes) → Path → Bytes → List (Path × Bytes)
  | [], p, bs => [(p, bs)]
  | (q, cs) :: rest, p, bs =>
      if q = p then (p, bs) :: rest else (q, cs) :: setFile rest p bs

/-- `getAbstractFileByPath(...) !== null`: a file or folder exists there. -/
def fileOrFolderExists (v : Vault) (p : Path) : Bool :=
  (readFile v.files p).isSome || decide (p ∈ v.folders)

def createFolder (v : Vault) (p : Path) : Vault := ⟨v.files, p :: v.folders⟩

theorem readFile_setFile_same :
    ∀ (fs : List (Path × Bytes)) (p : Path) (bs : Bytes),
      readFile (setFile fs p bs) p = some bs
  | [], p, bs => by simp [setFile, readFile]
  | (q, cs) :: rest, p, bs => by
      by_cases h : q = p <;>
        simp [setFile, readFile, h, readFile_setFile_same rest p bs]

theorem readFile_setFile_other :
    ∀ (fs : List (Path × Bytes)) (q : Path) (bs : Bytes) (p : Path), q ≠ p →
      readFile (setFile fs q bs) p = readFile fs p
  | [], q, bs, p, h => by simp [setFile, readFile, h]
  | (q2, cs) :: rest, q, bs, p, h => by
      by_cases h2 : q2 = q
      · subst h2
        simp [setFile, readFile, h, Ne.symm h]
      · simp only [setFile, if_neg h2]
        by_cases h3 : q2 = p <;>
          simp [readFile, h3, readFile_setFile_other rest q bs p h]

/-- The backup block of `processImage` (src/main.ts:224-236): if backups are
enabled and no backup exists, create the `_originals` folder when missing and
write the original bytes at the backup path; otherwise leave the vault
alone. -/
def backupStep (keepBackup : Bool) (v : Vault) (p : Path) (data : Bytes) : Vault :=
  if keepBackup && !(fileOrFolderExists v (getBackupPath p)) then
    let bdir := dirName (getBackupPath p)
    let v1 := if fileOrFolderExists v bdir then v else createFolder v bdir
    ⟨setFile v1.files (getBackupPath p) data, v1.folders⟩
  else v

theorem backupStep_files_other (keepBackup : Bool) (v : Vault) (p : Path)
    (data : Bytes) (q : Path) (hq : q ≠ getBackupPath p) :
    readFile (backupStep keepBackup v p data).files q = readFile v.files q := by
  rw [backupStep]
  by_cases hb : keepBackup && !(fileOrFolderExists v (getBackupPath p))
  · rw [if_pos hb]
    by_cases hd : fileOrFolderExists v (dirName (getBackupPath p))
    · simp only [hd, if_true]
      exact readFile_setFile_other v.files (getBackupPath p) data q
        (fun h => hq h.symm) |>.symm ▸ readFile_setFile_other _ _ _ _
        (fun h => hq h.symm)
    · simp only [hd, if_false, Bool.false_eq_true, createFolder]
      exact readFile_setFile_other _ _ _ _ (fun h => hq h.symm)
  · rw [if_neg hb]

theorem backupStep_keeps_existing (keepBackup : Bool) (v : Vault) (p : Path)
    (data bold : Bytes) (hb : readFile v.files (getBackupPath p) = some bold) :
    readFile (backupStep keepBackup v p data).files (getBackupPath p) = some bold := by
  rw [backupStep]
  have hex : fileOrFolderExists v (getBackupPath p) = true := by
    rw [fileOrFolderExists, hb]
    rfl
  rw [hex]
  simp [hb]

theorem backupStep_creates (v : Vault) (p : Path) (data : Bytes)
    (hnb : fileOrFolderExists v (getBackupPath p) = false) :
    readFile (backupStep true v p data).files (getBackupPath p) = some data := by
  rw [backupStep, hnb]
  by_cases hd : fileOrFolderExists v (dirName (getBackupPath p)) <;>
    simp [hd, createFolder, readFile_setFile_same]

/-- Failure notice text (src/main.ts:253). -/
def failNotice (p : Path) : String := "Failed to process " ++ String.mk (fileName p)

/-- Success notice text (src/main.ts:245). -/
def okNotice (p : Path) : String := "Image autocropped: " ++ String.mk (fileName p)

structure RunState where
  processing : List Path
  vault : Vault
  notices : List String
deriving DecidableEq

structure RunOutcome where
  state : RunState
  success : Bool
deriving DecidableEq

/-- `processImage` (src/main.ts:206-260): bail out when sharp is unavailable
or the path is already in flight; otherwise mark it in flight, read the file,
create the backup if enabled and absent, run `autocropImage` (abstracted as
`auto`), and only on a successful non-null result write the output back; any
thrown error lands in the catch, which posts a failure notice and returns
false without writing. -/
def processImage (sharpOk keepBackup : Bool)
    (auto : Bytes → Except PErr (Option Bytes)) (st : RunState) (p : Path) :
    RunOutcome :=
  if sharpOk = false then
    ⟨{ st with notices := "Image processing library not available" :: st.notices }, false⟩
  else if p ∈ st.processing then ⟨st, false⟩
  else
    let st1 : RunState := { st with processing := p :: st.processing }
    match readFile st1.vault.files p with
    | none => ⟨{ st1 with notices := failNotice p :: st1.notices }, false⟩
    | some data =>
        let st2 : RunState := { st1 with vault := backupStep keepBackup st1.vault p data }
        match auto data with
        | .error _ => ⟨{ st2 with notices := failNotice p :: st2.notices }, false⟩
        | .ok none => ⟨st2, false⟩
        | .ok (some out) =>
            ⟨{ st2 with
                vault := ⟨setFile st2.vault.files p out, st2.vault.folders⟩,
                notices := okNotice p :: st2.notices }, true⟩

theorem backupStep_false (v : Vault) (p : Path) (data : Bytes) :
    backupStep false v p data = v := by
  simp [backupStep]

theorem processImage_eq_noSharp (keepBackup : Bool)
    (auto : Bytes → Except PErr (Option Bytes)) (st : RunState) (p : Path) :
    processImage false keepBackup auto st p =
      ⟨⟨st.processing, st.vault,
        "Image processing library not available" :: st.notices⟩, false⟩ := by
  simp [processImage]

theorem processImage_eq_inflight (keepBackup : Bool)
    (auto : Bytes → Except PErr (Option Bytes)) (st : RunState) (p : Path)
    (hm : p ∈ st.processing) :
    processImage true keepBackup auto st p = ⟨st, false⟩ := by
  simp [processImage, hm]

theorem processImage_eq_noread (keepBackup : Bool)
    (auto : Bytes → Except PErr (Option Bytes)) (st : RunState) (p : Path)
    (hm : p ∉ st.processing) (hr : readFile st.vault.files p = none) :
    processImage true keepBackup auto st p =
      ⟨⟨p :: st.processing, st.vault, failNotice p :: st.notices⟩, false⟩ := by
  simp [processImage, hm, hr]

theorem processImage_eq_err (keepBackup : Bool)
    (auto : Bytes → Except PErr (Option Bytes)) (st : RunState) (p : Path)
    (data : Bytes) (e : PErr) (hm : p ∉ st.processing)
    (hr : readFile st.vault.files p = some data) (ha : auto data = .error e) :
    processImage true keepBackup auto st p =
      ⟨⟨p :: st.processing, backupStep keepBackup st.vault p data,
        failNotice p :: st.notices⟩, false⟩ := by
  simp [processImage, hm, hr, ha]

theorem processImage_eq_none (keepBackup : Bool)
    (auto : Bytes → Except PErr (Option Bytes)) (st : RunState) (p : Path)
    (data : Bytes) (hm : p ∉ st.processing)
    (hr : readFile st.vault.files p = some data) (ha : auto data = .ok none) :
    processImage true keepBackup auto st p =
      ⟨⟨p :: st.processing, backupStep keepBackup st.vault p data,
        st.notices⟩, false⟩ := by
  simp [processImage, hm, hr, ha]

theorem processImage_eq_write (keepBackup : Bool)
    (auto : Bytes → Except PErr (Option Bytes)) (st : RunState) (p : Path)
    (data out : Bytes) (hm : p ∉ st.processing)
    (hr : readFile st.vault.files p = some data) (ha : auto data = .ok (some out)) :
    processImage true keepBackup auto st p =
      ⟨⟨p :: st.processing,
        ⟨setFile (backupStep keepBackup st.vault p data).files p out,
         (backupStep keepBackup st.vault p data).folders⟩,
        okNotice p :: st.notices⟩, true⟩ := by
  simp [processImage, hm, hr, ha]

/-- C7: the write of output bytes to the original file happens only after the
processing call succeeded — a successful run writes exactly the `.ok` output
produced from the bytes that were read; any failing run (library unavailable,
in-flight rejection, unreadable file, or a processing error) leaves the
original file's bytes unmodified; and a processing error additionally posts
the human-readable failure notice. -/
theorem C7_write_after_encode (sharpOk keepBackup : Bool)
    (auto : Bytes → Except PErr (Option Bytes)) (st : RunState) (p : Path) :
    ((processImage sharpOk keepBackup auto st p).success = false →
      readFile (processImage sharpOk keepBackup auto st p).state.vault.files p =
        readFile st.vault.files p) ∧
    ((processImage sharpOk keepBackup auto st p).success = true →
      ∃ data out, readFile st.vault.files p = some data ∧ auto data = .ok (some out) ∧
        readFile (processImage sharpOk keepBackup auto st p).state.vault.files p =
          some out) ∧
    (∀ data e, sharpOk = true → p ∉ st.processing →
      readFile st.vault.files p = some data → auto data = .error e →
      failNotice p ∈ (processImage sharpOk keepBackup auto st p).state.notices ∧
      readFile (processImage sharpOk keepBackup auto st p).state.vault.files p =
        readFile st.vault.files p) := by
  have hpn : p ≠ getBackupPath p := fun h => getBackupPath_ne p h.symm
  rcases hs : sharpOk with _ | _
  · rw [processImage_eq_noSharp]
    refine ⟨fun _ => rfl, ?_, ?_⟩
    · intro h
      cases h
    · intro data e hst
      cases hst
  · by_cases hmem : p ∈ st.processing
    · rw [processImage_eq_inflight _ _ _ _ hmem]
      refine ⟨fun _ => rfl, ?_, ?_⟩
      · intro h
        cases h
      · intro data e _ hm2
        exact absurd hmem hm2
    · rcases hread : readFile st.vault.files p with _ | data
      · rw [processImage_eq_noread _ _ _ _ hmem hread]
        refine ⟨fun _ => hread, ?_, ?_⟩
        · intro h
          cases h
        · intro data e _ _ hr2
          cases hr2
      · rcases hauto : auto data with e | od
        · rw [processImage_eq_err _ _ _ _ data e hmem hread hauto]
          refine ⟨fun _ => (backupStep_files_other _ _ _ _ _ hpn).trans hread, ?_, ?_⟩
          · intro h
            cases h
          · intro data2 e2 _ _ hr2 ha2
            cases hr2
            exact ⟨List.mem_cons_self _ _,
              (backupStep_files_other _ _ _ _ _ hpn).trans hread⟩
        · rcases od with _ | out
          · rw [processImage_eq_none _ _ _ _ data hmem hread hauto]
            refine ⟨fun _ => (backupStep_files_other _ _ _ _ _ hpn).trans hread, ?_, ?_⟩
            · intro h
              cases h
            · intro data2 e2 _ _ hr2 ha2
              cases hr2
              rw [hauto] at ha2
              cases ha2
          · rw [processImage_eq_write _ _ _ _ data out hmem hread hauto]
            refine ⟨?_, fun _ => ⟨data, out, rfl, hauto, ?_⟩, ?_⟩
            · intro h
              cases h
            · exact readFile_setFile_same _ _ _
            · intro data2 e2 _ _ hr2 ha2
              cases hr2
              rw [hauto] at ha2
              cases ha2

/-- Witness for C7: with an in-place store holding one file and a processing
step that fails with an encode error, the call posts the failure notice and
leaves the file's bytes unchanged. -/
theorem C7_write_after_encode_witness :
    failNotice ([ 'a' ]) ∈
      (processImage true false (fun _ => .error .encodeErr)
        ⟨[], ⟨[([ 'a' ], [1, 2])], []⟩, []⟩ [ 'a' ]).state.notices ∧
    readFile (processImage true false (fun _ => .error .encodeErr)
        ⟨[], ⟨[([ 'a' ], [1, 2])], []⟩, []⟩ [ 'a' ]).state.vault.files [ 'a' ] =
      some [1, 2] :=
  ⟨((C7_write_after_encode true false (fun _ => .error .encodeErr)
      ⟨[], ⟨[([ 'a' ], [1, 2])], []⟩, []⟩ [ 'a' ]).2.2 [1, 2] .encodeErr rfl
      (by decide) rfl rfl).1,
   (((C7_write_after_encode true false (fun _ => .error .encodeErr)
      ⟨[], ⟨[([ 'a' ], [1, 2])], []⟩, []⟩ [ 'a' ]).2.2 [1, 2] .encodeErr rfl
      (by decide) rfl rfl).2).trans (by decide)⟩

/-- C9: an existing backup at the derived `<dir>/_originals/<name>` path is
never overwritten by another processing run, whatever the current source
bytes; with backups disabled the backup path is left untouched; and the backup
is created — with exactly the bytes read from the original — only when no
backup exists yet. -/
theorem C9_backup_non_clobber (sharpOk keepBackup : Bool)
    (auto : Bytes → Except PErr (Option Bytes)) (st : RunState) (p : Path) :
    (∀ bold, readFile st.vault.files (getBackupPath p) = some bold →
      readFile (processImage sharpOk keepBackup auto st p).state.vault.files
        (getBackupPath p) = some bold) ∧
    (keepBackup = false →
      readFile (processImage sharpOk keepBackup auto st p).state.vault.files
        (getBackupPath p) = readFile st.vault.files (getBackupPath p)) ∧
    (∀ data, sharpOk = true → p ∉ st.processing → keepBackup = true →
      fileOrFolderExists st.vault (getBackupPath p) = false →
      readFile st.vault.files p = some data →
      readFile (processImage sharpOk keepBackup auto st p).state.vault.files
        (getBackupPath p) = some data) := by
  have hpn : p ≠ getBackupPath p := fun h => getBackupPath_ne p h.symm
  rcases hs : sharpOk with _ | _
  · rw [processImage_eq_noSharp]
    refine ⟨fun bold hb => hb, fun _ => rfl, ?_⟩
    intro data hst
    cases hst
  · by_cases hmem : p ∈ st.processing
    · rw [processImage_eq_inflight _ _ _ _ hmem]
      refine ⟨fun bold hb => hb, fun _ => rfl, ?_⟩
      intro data _ hm2
      exact absurd hmem hm2
    · rcases hread : readFile st.vault.files p with _ | data
      · rw [processImage_eq_noread _ _ _ _ hmem hread]
        refine ⟨fun bold hb => hb, fun _ => rfl, fun data _ _ _ _ hr2 => ?_⟩
        cases hr2
      · rcases hauto : auto data with e | od
        · rw [processImage_eq_err _ _ _ _ data e hmem hread hauto]
          refine ⟨fun bold hb => backupStep_keeps_existing _ _ _ _ _ hb, ?_, ?_⟩
          · intro hkb
            subst hkb
            rw [backupStep_false]
          · intro data2 _ _ hkb hnb hr2
            cases hr2
            subst hkb
            exact backupStep_creates _ _ _ hnb
        · rcases od with _ | out
          · rw [processImage_eq_none _ _ _ _ data hmem hread hauto]
            refine ⟨fun bold hb => backupStep_keeps_existing _ _ _ _ _ hb, ?_, ?_⟩
            · intro hkb
              subst hkb
              rw [backupStep_false]
            · intro data2 _ _ hkb hnb hr2
              cases hr2
              subst hkb
              exact backupStep_creates _ _ _ hnb
          · rw [processImage_eq_write _ _ _ _ data out hmem hread hauto]
            refine ⟨?_, ?_, ?_⟩
            · intro bold hb
              show readFile (setFile _ p out) (getBackupPath p) = some bold
              rw [readFile_setFile_other _ _ _ _ hpn]
              exact backupStep_keeps_existing _ _ _ _ _ hb
            · intro hkb
              subst hkb
              show readFile (setFile _ p out) (getBackupPath p) = _
              rw [readFile_setFile_other _ _ _ _ hpn, backupStep_false]
            · intro data2 _ _ hkb hnb hr2
              cases hr2
              subst hkb
              show readFile (setFile _ p out) (getBackupPath p) = some data
              rw [readFile_setFile_other _ _ _ _ hpn]
              exact backupStep_creates _ _ _ hnb

/-- Witness for C9: a vault that already holds a backup with different bytes
than the current source; processing succeeds and rewrites the original, but
the backup keeps its old bytes. -/
theorem C9_backup_non_clobber_witness :
    readFile (processImage true true (fun _ => .ok (some [7]))
        ⟨[], ⟨[([ 'a' ], [1]), ("/_originals/a".toList, [9])], []⟩, []⟩
        [ 'a' ]).state.vault.files (getBackupPath [ 'a' ]) = some [9] :=
  (C9_backup_non_clobber true true (fun _ => .ok (some [7]))
      ⟨[], ⟨[([ 'a' ], [1]), ("/_originals/a".toList, [9])], []⟩, []⟩ [ 'a' ]).1
    [9] (by decide)

/-! ## Per-identity in-flight exclusion (src/main.ts:212-216, 255-259)

`processImage`'s in-flight set and its delayed eviction are asynchronous: the
entry check and insertion happen synchronously at call entry (JS runs them
without interleaving), the run completes later, and the `finally` block only
*schedules* the removal 2000 ms after completion.  This is modelled as a small
machine over an in-flight table: `reqStart` is the entry check, `reqFinish` a
successful completion (which performs the single write-back and schedules the
eviction), and `timerFire` the timer callback that evicts entries whose
scheduled time has passed. -/

structure Flight where
  path : Path
  removeAt : Option Nat
deriving Repr, DecidableEq

structure Sched where
  inflight : List Flight
  writes : List Path
  rejected : List Path
deriving Repr, DecidableEq

def inflightHas (s : Sched) (p : Path) : Bool :=
  s.inflight.any (fun f => decide (f.path = p))

/-- Entry of `processImage` (src/main.ts:212-216): a path already in flight is
rejected without any work; otherwise it is added with no scheduled removal. -/
def reqStart (s : Sched) (p : Path) : Sched :=
  if inflightHas s p then { s with rejected := p :: s.rejected }
  else { s with inflight := ⟨p, none⟩ :: s.inflight }

/-- Successful completion at time `t`: the run's single write-back happens and
the `finally` block schedules the eviction for `t + 2000` (src/main.ts:242,
255-259); the entry itself stays in the set. -/
def reqFinish (s : Sched) (p : Path) (t : Nat) : Sched :=
  { s with
    inflight := s.inflight.map (fun f =>
      if f.path = p ∧ f.removeAt = none then ⟨p, some (t + 2000)⟩ else f),
    writes := p :: s.writes }

/-- The timer callback at time `t` deletes entries whose scheduled removal
time has passed. -/
def timerFire (s : Sched) (t : Nat) : Sched :=
  { s with
    inflight := s.inflight.filter (fun f =>
      match f.removeAt with
      | some tr => decide (t < tr)
      | none => true) }

/-- C8: at most one run per identity is in flight — a second request for an
in-flight identity is rejected, changing nothing but the rejection log; two
requests for the same identity before the first completes produce exactly one
write; and the in-flight entry survives completion, disappearing only once
the fixed 2000 ms delay has elapsed, not immediately. -/
theorem C8_inflight_exclusion (p : Path) (t t1 t2 : Nat)
    (h1 : t1 < t + 2000) (h2 : t + 2000 ≤ t2) :
    (∀ s : Sched, inflightHas s p = true →
      reqStart s p = { s with rejected := p :: s.rejected }) ∧
    (reqStart (reqStart ⟨[], [], []⟩ p) p).writes = [] ∧
    (reqStart (reqStart ⟨[], [], []⟩ p) p).rejected = [p] ∧
    (reqStart (reqStart ⟨[], [], []⟩ p) p).inflight =
      (reqStart ⟨[], [], []⟩ p).inflight ∧
    (reqFinish (reqStart (reqStart ⟨[], [], []⟩ p) p) p t).writes = [p] ∧
    inflightHas (timerFire (reqFinish (reqStart (reqStart ⟨[], [], []⟩ p) p) p t) t1)
      p = true ∧
    inflightHas (timerFire (reqFinish (reqStart (reqStart ⟨[], [], []⟩ p) p) p t) t2)
      p = false := by
  have hstep1 : reqStart (⟨[], [], []⟩ : Sched) p = ⟨[⟨p, none⟩], [], []⟩ := by
    simp [reqStart, inflightHas]
  have hhas1 : inflightHas (⟨[⟨p, none⟩], [], []⟩ : Sched) p = true := by
    simp [inflightHas]
  have hstep2 : reqStart (⟨[⟨p, none⟩], [], []⟩ : Sched) p =
      ⟨[⟨p, none⟩], [], [p]⟩ := by
    simp [reqStart, hhas1]
  have hstep3 : reqFinish (⟨[⟨p, none⟩], [], [p]⟩ : Sched) p t =
      ⟨[⟨p, some (t + 2000)⟩], [p], [p]⟩ := by
    simp [reqFinish]
  have hd1 : decide (t1 < t + 2000) = true := decide_eq_true h1
  have hd2 : decide (t2 < t + 2000) = false := decide_eq_false (by omega)
  refine ⟨?_, ?_, ?_, ?_, ?_, ?_, ?_⟩
  · intro s hs
    rw [reqStart, if_pos hs]
  · rw [hstep1, hstep2]
  · rw [hstep1, hstep2]
  · rw [hstep1, hstep2]
  · rw [hstep1, hstep2, hstep3]
  · rw [hstep1, hstep2, hstep3, timerFire]
    simp [inflightHas, hd1]
  · rw [hstep1, hstep2, hstep3, timerFire]
    simp [inflightHas, hd2]

/-- Witness for C8 at a concrete path and concrete times: completion at time 0
schedules eviction at 2000; the entry is still present at 1999 and gone at
2000, and the two overlapping requests produced exactly one write. -/
theorem C8_inflight_exclusion_witness :
    (reqFinish (reqStart (reqStart ⟨[], [], []⟩ [ 'a' ]) [ 'a' ]) [ 'a' ] 0).writes =
      [[ 'a' ]] ∧
    inflightHas
      (timerFire (reqFinish (reqStart (reqStart ⟨[], [], []⟩ [ 'a' ]) [ 'a' ]) [ 'a' ] 0)
        1999) [ 'a' ] = true ∧
    inflightHas
      (timerFire (reqFinish (reqStart (reqStart ⟨[], [], []⟩ [ 'a' ]) [ 'a' ]) [ 'a' ] 0)
        2000) [ 'a' ] = false :=
  ⟨(C8_inflight_exclusion [ 'a' ] 0 1999 2000 (by decide) (by decide)).2.2.2.2.1,
   (C8_inflight_exclusion [ 'a' ] 0 1999 2000 (by decide) (by decide)).2.2.2.2.2.1,
   (C8_inflight_exclusion [ 'a' ] 0 1999 2000 (by decide) (by decide)).2.2.2.2.2.2⟩

end Autocrop
